import Mathlib

/-!
# Shrdlite core — shallow embedding and verification

This file embeds the reasoning core of the Shrdlite blocks-world planner
(interpreter, state graph, A* search, plan renderer) as executable Lean
definitions translated from the TypeScript sources, and proves or refutes
the specification claims about them.

Conventions used throughout the embedding:
* TypeScript strings stay `String`; optional fields become `Option`.
* TypeScript numbers that hold costs become `ℚ`; array indices that may be
  `-1` sentinels become `Int`.
* Fallible code (Typescript `throw`) is modelled with `Except String`.
* A JavaScript crash (`TypeError` from indexing `undefined`) inside the
  planner goal test is modelled as the literal evaluating to `false`; this
  only enlarges the set of worlds on which the planner returns a plan, so
  every universally quantified soundness statement proved here covers the
  TypeScript behaviour.
* Wall-clock timeouts and unbounded loops are modelled with a fuel
  parameter; running out of fuel yields no result, like a timeout.
-/

/-- Definition of an object in the world: `form`, `size`, `color`
(TS `ObjectDefinition`). -/
structure ObjectDefinition where
  form : String
  size : String
  color : String
deriving DecidableEq, Repr

/-- An object description with optional fields, as passed to
`isValidRelation` (TS `{form?: string, size?: string}`). A missing field is
JavaScript `undefined`; `Option.none` mirrors it (`undefined == undefined`
is true, `undefined == "s"` is false, matching `Option` equality on the
cases that occur). -/
structure ObjDesc where
  form : Option String
  size : Option String
deriving DecidableEq, Repr

/-- The `above` branch of `Util.isValidRelation` (lines 97–99). -/
def isValidAbove (lhs rhs : ObjDesc) : Bool :=
  if rhs.form = some "ball" then false
  else if lhs.size = some "large" ∧ rhs.size = some "small" then false
  else true

/-- `Util.isValidRelation` from `src/Util.ts` (lines 82–104): whether `lhs`
can stand in `relation` to `rhs`, as a closed truth table.  The `under`
branch of the source calls `isValidRelation(rhs, "above", lhs)`, which is
the `above` branch on the swapped arguments; it is written through
`isValidAbove` here to keep the definition kernel-reducible. -/
def isValidRelation (lhs : ObjDesc) (relation : String) (rhs : ObjDesc) : Bool :=
  if relation = "ontop" then
    if rhs.form = some "box" ∨ rhs.form = some "ball" then false
    else if lhs.form = some "ball" ∧ rhs.form ≠ some "floor" then false
    else if lhs.size = some "large" ∧ rhs.size = some "small" then false
    else if lhs.form = some "box" ∧ rhs.size = some "small" ∧
        (rhs.form = some "brick" ∨ rhs.form = some "pyramid") then false
    else if lhs.form = some "box" ∧ lhs.size = some "large" ∧
        rhs.form = some "pyramid" then false
    else true
  else if relation = "inside" then
    if rhs.form ≠ some "box" then false
    else if rhs.size = lhs.size ∧
        (lhs.form ≠ some "ball" ∧ lhs.form ≠ some "brick" ∧ lhs.form ≠ some "table") then false
    else if rhs.size = some "small" ∧ lhs.size = some "large" then false
    else true
  else if relation = "above" then isValidAbove lhs rhs
  else if relation = "under" then isValidAbove rhs lhs
  else true

/-- `Util.findStack` from `src/Util.ts` (lines 15–20): the index of the
stack containing `id`, scanning from the last stack towards the first
(so the rightmost match wins), `-1` if absent. -/
def findStack (id : String) : List (List String) → Int
  | [] => -1
  | col :: rest =>
    let r := findStack id rest
    if r = -1 then (if id ∈ col then 0 else -1) else r + 1

/-- TS `Array.prototype.indexOf` on a list of strings: first index, `-1` if
absent. -/
def listIndexOf (l : List String) (x : String) : Int :=
  match l.indexOf? x with
  | some n => (n : Int)
  | none => -1

/-- `Util.WorldObject` from `src/Util.ts`: positional data about an object
(`stack`/`pos` may be the `-1` held-object sentinel). -/
structure WorldObject where
  id : String
  stack : Int
  pos : Int
deriving DecidableEq, Repr

/-- Column `i` of `stackList`, the empty column if out of range. -/
def colAt (stackList : List (List String)) (i : Int) : List String :=
  if i < 0 then [] else stackList.getD i.toNat []

/-- `Util.WorldObject.findRelated` from `src/Util.ts` (lines 46–71): the
identifiers positionally related to this object.  Branches that crash in
JavaScript (indexing `undefined` when `stack` is the `-1` sentinel) become
`Except.error`; a singleton list `[undefined]` (an in-range `-1` inner
index) is observationally an empty restriction list, and is modelled as
`[]`. -/
def findRelated (w : WorldObject) (stackList : List (List String)) (relation : String) :
    Except String (List String) :=
  if relation = "leftof" then
    .ok (if w.stack < (stackList.length : Int) - 1 then
      ((stackList.drop (w.stack + 1).toNat).flatten) else [])
  else if relation = "rightof" then
    .ok (if 0 < w.stack then ((stackList.take w.stack.toNat).flatten) else [])
  else if relation = "inside" then
    if w.stack < 0 then .error "TypeError" else
    .ok (match (colAt stackList w.stack).get? (w.pos - 1).toNat with
      | some x => if 0 < w.pos then [x] else []
      | none => [])
  else if relation = "ontop" then
    if 0 < w.pos then
      (if w.stack < 0 then .error "TypeError" else
        .ok (match (colAt stackList w.stack).get? (w.pos - 1).toNat with
          | some x => [x]
          | none => []))
    else .ok ["floor"]
  else if relation = "under" then
    if w.stack < 0 then .error "TypeError" else
    .ok ((colAt stackList w.stack).drop (listIndexOf (colAt stackList w.stack) w.id + 1).toNat)
  else if relation = "beside" then
    .ok ((if 0 < w.stack then stackList.getD (w.stack - 1).toNat [] else []) ++
         (if w.stack < (stackList.length : Int) - 1 then stackList.getD (w.stack + 1).toNat [] else []))
  else if relation = "above" then
    if w.stack < 0 then .error "TypeError" else
    .ok ("floor" :: (colAt stackList w.stack).take (listIndexOf (colAt stackList w.stack) w.id).toNat)
  else .error ("Not implemented: " ++ relation)

/-! ## Planner data model (from `src/unnamed/part_000`) -/

/-- `Planner.SearchState`: stacks (TS field `stacks`, here `stackList`),
held object, arm column. -/
structure SearchState where
  stackList : List (List String)
  holding : Option String
  arm : Nat
deriving DecidableEq, Repr

/-- A world snapshot (TS `WorldState`): like a search state plus the object
definitions. -/
structure WorldState where
  stackList : List (List String)
  holding : Option String
  arm : Nat
  objects : String → ObjectDefinition

/-- `Planner.worldToSearchState`. -/
def worldToSearchState (worldState : WorldState) : SearchState :=
  ⟨worldState.stackList, worldState.holding, worldState.arm⟩

/-- An edge of a graph (TS `Edge` in `Graph.ts`; the TS fields `from` and
`to` collide with Lean tokens and are called `src` and `dst` here). -/
structure Edge (Node : Type) where
  src : Node
  dst : Node
  cost : ℚ
deriving DecidableEq, Repr

/-- A directed graph given by its successor-edge function (TS interface
`Graph`; the unused `compareNodes` member is omitted). -/
structure Graph (Node : Type) where
  outgoingEdges : Node → List (Edge Node)

/-- `Planner.SearchStateGraph`: carries the object definitions and the
number of objects counted at construction time. -/
structure SearchStateGraph where
  worldObjects : String → ObjectDefinition
  numObjects : Nat

/-- The `SearchStateGraph` constructor: `numObjects` is the length of the
flattened `stacks` of the world it is built from (an initially held object
is not counted — this is the TS
`[].concat.apply([], worldState.stacks).length`). -/
def mkSearchStateGraph (worldState : WorldState) : SearchStateGraph :=
  ⟨worldState.objects, (worldState.stackList.map List.length).sum⟩

/-- The `ObjDesc` (form/size pair) of an object id, as built at the
`isValidRelation` call sites of the planner. -/
def descOf (g : SearchStateGraph) (id : String) : ObjDesc :=
  ⟨some (g.worldObjects id).form, some (g.worldObjects id).size⟩

/-- `Planner.SearchStateGraph.outgoingEdges` (part_000 lines 92–196): the
candidate moves from a state.  `carryCost = carryLargeCost = 2`,
`maxPickupCost = 10` exactly as in the source; JavaScript division by zero
(`numObjects = 0`) cannot be hit with a nonempty column under the world
invariants and is the `ℚ` convention `q / 0 = 0` here. -/
def SearchStateGraph.outgoingEdges (g : SearchStateGraph) (node : SearchState) :
    List (Edge SearchState) :=
  let col := node.stackList.getD node.arm []
  let N : ℚ := (g.numObjects : ℚ)
  let carryAdd : ℚ :=
    match node.holding with
    | none => 0
    | some h => 2 + (if (g.worldObjects h).size = "large" then 2 else 0)
  let leftE : List (Edge SearchState) :=
    if 0 < node.arm then
      [⟨node, ⟨node.stackList, node.holding, node.arm - 1⟩, 1 + carryAdd⟩]
    else []
  let rightE : List (Edge SearchState) :=
    if node.arm < node.stackList.length - 1 then
      [⟨node, ⟨node.stackList, node.holding, node.arm + 1⟩, 1 + carryAdd⟩]
    else []
  let pickDropE : List (Edge SearchState) :=
    match node.holding with
    | none =>
      if col = [] then []
      else
        [⟨node, ⟨node.stackList.set node.arm col.dropLast, col.getLast?, node.arm⟩,
          1 + 10 * (N - (col.length : ℚ)) / N⟩]
    | some x =>
      if col = [] then
        [⟨node, ⟨node.stackList.set node.arm (col ++ [x]), none, node.arm⟩, 1 + 10⟩]
      else
        let top := (col.getLast?).getD ""
        if isValidRelation (descOf g x)
            (if (g.worldObjects top).form = "box" then "inside" else "ontop")
            (descOf g top) then
          [⟨node, ⟨node.stackList.set node.arm (col ++ [x]), none, node.arm⟩,
            1 + 10 * (N - (col.length : ℚ)) / N⟩]
        else []
  leftE ++ rightE ++ pickDropE

/-- The graph interface of a `SearchStateGraph`. -/
def SearchStateGraph.toGraph (g : SearchStateGraph) : Graph SearchState :=
  ⟨g.outgoingEdges⟩

/-! ## Goal test and heuristic (part_000 lines 210–261) -/

/-- `Interpreter.Literal`. -/
structure Literal where
  polarity : Bool
  relation : String
  args : List String
deriving DecidableEq, Repr

/-- A conjunction of literals. -/
abbrev Conjunction := List Literal

/-- `Interpreter.DNFFormula`: a disjunction of conjunctions. -/
abbrev DNFFormula := List Conjunction

/-- One literal of the goal test of `Planner.goal` (part_000 lines
211–228).  The JavaScript crash when the literal's object is in neither the
stacks nor the hand (indexing `stacks[-1]`), and the crash inside
`findRelated`, are modelled as the literal being `false`; both are
unreachable for literals produced by the interpreter. -/
def litHolds (node : SearchState) (literal : Literal) : Bool :=
  if literal.relation = "holding" then
    decide (some (literal.args.getD 0 "") = node.holding)
  else
    let id := literal.args.getD 0 ""
    if node.holding = some id then false
    else
      let st := findStack id node.stackList
      if st < 0 then false
      else
        let col := colAt node.stackList st
        match findRelated ⟨id, st, listIndexOf col id⟩ node.stackList literal.relation with
        | .ok ids => ids.contains (literal.args.getD 1 "")
        | .error _ => false

/-- `Planner.goal` (part_000 lines 210–230): a state satisfies the DNF iff
some conjunction has all its literals satisfied. -/
def goal (interpretation : DNFFormula) (node : SearchState) : Bool :=
  interpretation.any fun conjunction => conjunction.all (litHolds node)

/-- Heuristic values: JavaScript `Math.min`/`Math.max` over possibly empty
lists produce `±Infinity`, so values live in `WithTop (WithBot ℚ)`. -/
abbrev HVal := WithTop (WithBot ℚ)

/-- A finite heuristic value. -/
def qv (q : ℚ) : HVal := ((q : WithBot ℚ) : HVal)

/-- Per-literal estimate of `Planner.heuristics` (part_000 lines 237–258). -/
def hLit (node : SearchState) (literal : Literal) : ℚ :=
  if literal.relation = "holding" then
    let pos := findStack (literal.args.getD 0 "") node.stackList
    if pos = -1 then 0 else ((pos - (node.arm : Int)).natAbs : ℚ) + 1
  else if literal.relation = "leftof" then
    let pos1 := findStack (literal.args.getD 0 "") node.stackList
    let pos2 := findStack (literal.args.getD 1 "") node.stackList
    let p1 : Int := if pos1 = -1 then (node.arm : Int) else pos1
    let p2 : Int := if pos2 = -1 then (node.arm : Int) else pos2
    if p1 < p2 then 0 else ((p1 - p2 : Int) : ℚ) + 2
  else if literal.relation = "rightof" then
    let pos1 := findStack (literal.args.getD 0 "") node.stackList
    let pos2 := findStack (literal.args.getD 1 "") node.stackList
    let p1 : Int := if pos1 = -1 then (node.arm : Int) else pos1
    let p2 : Int := if pos2 = -1 then (node.arm : Int) else pos2
    if p2 < p1 then 0 else ((p2 - p1 : Int) : ℚ) + 2
  else 0

/-- JavaScript `Math.max.apply` over a list of rationals (`-Infinity` on
the empty list). -/
def maxQ (l : List ℚ) : WithBot ℚ :=
  l.foldr (fun q acc => max ((q : WithBot ℚ)) acc) ⊥

/-- JavaScript `Math.min.apply` over a list of extended rationals
(`+Infinity` on the empty list). -/
def minB (l : List (WithBot ℚ)) : HVal :=
  l.foldr (fun v acc => min ((v : HVal)) acc) ⊤

/-- Estimate for one conjunction: the most expensive literal. -/
def hConj (node : SearchState) (conjunction : Conjunction) : WithBot ℚ :=
  maxQ (conjunction.map (hLit node))

/-- `Planner.heuristics` (part_000 lines 232–261): the cheapest conjunction
of the disjunction, each estimated by its most expensive literal. -/
def heuristics (interpretation : DNFFormula) (node : SearchState) : HVal :=
  minB (interpretation.map (fun c => hConj node c))

/-! ## A* search (from `src/unnamed/part_004`) -/

/-- `SearchResult` from `Graph.ts`. -/
structure SearchResult (Node : Type) where
  path : List Node
  cost : ℚ
deriving DecidableEq, Repr

/-- `FrontierNode` of `aStarSearch` (part_004 lines 60–89): a node, a
backpointer, and the accumulated cost. -/
inductive FrontierNode (Node : Type) where
  | mk (node : Node) (previous : Option (FrontierNode Node)) (cost : ℚ)

/-- The node of a frontier item. -/
def FrontierNode.node : FrontierNode Node → Node
  | ⟨n, _, _⟩ => n

/-- The accumulated cost of a frontier item. -/
def FrontierNode.cost : FrontierNode Node → ℚ
  | ⟨_, _, c⟩ => c

/-- `frontierValue = cost + heuristics(node)` (precomputed in the TS
constructor; recomputed from the fields here, which yields the same
value). -/
def frontierValue (h : Node → HVal) (it : FrontierNode Node) : HVal :=
  qv it.cost + h it.node

/-- The node sequence from the item back to the start (most recent
first), as walked by `toResult` before the `reverse`. -/
def pathRevList : FrontierNode Node → List Node
  | ⟨n, none, _⟩ => [n]
  | ⟨n, some p, _⟩ => n :: pathRevList p

/-- `FrontierNode.toResult` (part_004 lines 76–88): backtrace and
reverse. -/
def toResult (it : FrontierNode Node) : SearchResult Node :=
  ⟨(pathRevList it).reverse, it.cost⟩

/-- Dequeue of the priority queue: an element with minimal
`frontierValue`, and the remaining frontier.  The TS binary heap breaks
ties arbitrarily; this model takes the earliest minimal element (the
soundness lemmas below hold for every element of the frontier, hence for
any tie-break). -/
def extractMin (h : Node → HVal) :
    List (FrontierNode Node) → Option (FrontierNode Node × List (FrontierNode Node))
  | [] => none
  | x :: xs =>
    match extractMin h xs with
    | none => some (x, xs)
    | some (m, rest) =>
      if frontierValue h x ≤ frontierValue h m then some (x, xs) else some (m, x :: rest)

/-- The A* main loop (part_004 lines 96–116): dequeue, skip visited nodes,
test the goal, otherwise expand the successors not yet visited.  `fuel`
bounds the number of iterations, modelling the wall-clock timeout; an
exhausted frontier or exhausted fuel give no result. -/
def aStarLoop [DecidableEq Node] (g : Graph Node) (goalF : Node → Bool) (h : Node → HVal) :
    Nat → List Node → List (FrontierNode Node) → Option (SearchResult Node)
  | 0, _, _ => none
  | fuel + 1, visited, frontier =>
    match extractMin h frontier with
    | none => none
    | some (item, rest) =>
      if item.node ∈ visited then aStarLoop g goalF h fuel visited rest
      else if goalF item.node then some (toResult item)
      else
        aStarLoop g goalF h fuel (item.node :: visited)
          (rest ++ (g.outgoingEdges item.node).filterMap
            (fun e => if e.dst ∈ item.node :: visited then none
                      else some ⟨e.dst, some item, item.cost + e.cost⟩))

/-- `aStarSearch` (part_004 lines 51–119). -/
def aStarSearch [DecidableEq Node] (g : Graph Node) (start : Node) (goalF : Node → Bool)
    (h : Node → HVal) (fuel : Nat) : Option (SearchResult Node) :=
  aStarLoop g goalF h fuel [] [⟨start, none, 0⟩]

/-! ## Plan renderer and top-level planner (part_000 lines 263–344) -/

/-- The loop of `Planner.convertPathToPlan` (part_000 lines 269–307),
walking consecutive path states with the `pickedUpAnything` flag.
`rest = []` is the TS condition `i == path.path.length - 2` (the transition
is the last one of the path). -/
def convertAux (objects : String → ObjectDefinition) :
    List SearchState → Bool → List String
  | current :: next :: rest, pickedUpAnything =>
    if next.arm < current.arm then
      "l" :: convertAux objects (next :: rest) pickedUpAnything
    else if current.arm < next.arm then
      "r" :: convertAux objects (next :: rest) pickedUpAnything
    else
      match current.holding, next.holding with
      | none, some hId =>
        let holdObject := objects hId
        ((if rest = [] then "Taking" else "Moving") ++
            " the " ++ holdObject.size ++ " " ++ holdObject.color ++ " " ++ holdObject.form)
          :: "p" :: convertAux objects (next :: rest) true
      | some hId, none =>
        if pickedUpAnything then "d" :: convertAux objects (next :: rest) false
        else
          ("Dropping " ++ "the " ++ (objects hId).size ++ " " ++ (objects hId).color ++
              " " ++ (objects hId).form)
            :: "d" :: convertAux objects (next :: rest) false
      | _, _ => convertAux objects (next :: rest) pickedUpAnything
  | _, _ => []

/-- `Planner.convertPathToPlan` (part_000 lines 263–310). -/
def convertPathToPlan (objects : String → ObjectDefinition)
    (path : SearchResult SearchState) : List String :=
  convertAux objects path.path false

/-- `Planner.planInterpretation` (part_000 lines 330–344): build the graph
and the goal/heuristic closures from the snapshot, run A*, render the path.
When A* finds nothing the TS code crashes on `path.path` (caught by the
driver); either way no plan is produced, modelled as `none`. -/
def planInterpretation (fuel : Nat) (interpretation : DNFFormula)
    (state : WorldState) : Option (List String) :=
  match aStarSearch (mkSearchStateGraph state).toGraph (worldToSearchState state)
      (goal interpretation) (heuristics interpretation) fuel with
  | some path => some (convertPathToPlan state.objects path)
  | none => none

/-! ## Executable semantics of the primitive action tokens (§4.2) -/

/-- Executing one primitive token under the state-graph successor
semantics: the same guards and state updates as the corresponding move of
`SearchStateGraph.outgoingEdges`; `none` when the move is not available. -/
def execAction (g : SearchStateGraph) (s : SearchState) (tok : String) : Option SearchState :=
  if tok = "l" then
    if 0 < s.arm then some ⟨s.stackList, s.holding, s.arm - 1⟩ else none
  else if tok = "r" then
    if s.arm < s.stackList.length - 1 then some ⟨s.stackList, s.holding, s.arm + 1⟩ else none
  else if tok = "p" then
    match s.holding with
    | some _ => none
    | none =>
      let col := s.stackList.getD s.arm []
      if col = [] then none
      else some ⟨s.stackList.set s.arm col.dropLast, col.getLast?, s.arm⟩
  else if tok = "d" then
    match s.holding with
    | none => none
    | some x =>
      let col := s.stackList.getD s.arm []
      if col = [] then some ⟨s.stackList.set s.arm (col ++ [x]), none, s.arm⟩
      else
        let top := (col.getLast?).getD ""
        if isValidRelation (descOf g x)
            (if (g.worldObjects top).form = "box" then "inside" else "ontop")
            (descOf g top) then
          some ⟨s.stackList.set s.arm (col ++ [x]), none, s.arm⟩
        else none
  else none

/-- Whether a plan entry is one of the four primitive action tokens (any
other entry is an utterance). -/
def isActionToken (tok : String) : Bool :=
  tok = "l" ∨ tok = "r" ∨ tok = "p" ∨ tok = "d"

/-- Execute a plan: apply the primitive tokens in order, ignore utterance
strings; `none` if some token's guard fails. -/
def execPlan (g : SearchStateGraph) (s : SearchState) : List String → Option SearchState
  | [] => some s
  | tok :: rest =>
    if isActionToken tok then
      match execAction g s tok with
      | some s' => execPlan g s' rest
      | none => none
    else execPlan g s rest

/-! ## Interpreter (from `src/Interpreter.ts`, first module) -/

mutual
/-- A parse-tree object (`Parser.Object`, §6.1): either a simple
description `{size?, color?, form}` or a relative one
`{object, location}`. -/
inductive PObject where
  | simple (size color : Option String) (form : String)
  | relative (object : PObject) (location : PLocation)

/-- A parse-tree location (`Parser.Location`): a relation and an entity. -/
inductive PLocation where
  | mk (relation : String) (entity : PEntity)

/-- A parse-tree entity (`Parser.Entity`): a quantifier and an object. -/
inductive PEntity where
  | mk (quantifier : String) (object : PObject)
end

/-- The relation of a location. -/
def PLocation.relation : PLocation → String
  | ⟨r, _⟩ => r

/-- The entity of a location. -/
def PLocation.entity : PLocation → PEntity
  | ⟨_, e⟩ => e

/-- The quantifier of an entity. -/
def PEntity.quantifier : PEntity → String
  | ⟨q, _⟩ => q

/-- The object of an entity. -/
def PEntity.object : PEntity → PObject
  | ⟨_, o⟩ => o

/-- Reading `.form` off a parse-tree object the way JavaScript does: a
relative object has no `form` field (`undefined`, here `none`). -/
def PObject.formOf : PObject → Option String
  | .simple _ _ f => some f
  | .relative _ _ => none

/-- The while-loop of `isCandidate` (Interpreter.ts lines 326–330):
collect the location clauses along the object chain (outermost first) and
return the innermost simple object's properties `(size, color, form)`. -/
def collectLocs : PObject → List PLocation × (Option String × Option String × String)
  | .simple s c f => ([], (s, c, f))
  | .relative o l =>
    let rest := collectLocs o
    (l :: rest.1, rest.2)

/-- A parse-tree command (`Parser.Command`, §6.1); `entity`/`location` are
optional exactly as in the TS interface. -/
structure Command where
  command : String
  entity : Option PEntity
  location : Option PLocation

mutual
/-- `Interpreter.findCandidates` (Interpreter.ts lines 371–407): the ids of
world objects satisfying an entity description, with an optional
restriction list; quantifier "the" fails on more than one candidate.  The
`fuel` argument only bounds the recursion depth (the TS recursion is
bounded by the finite parse tree, one unit is consumed per mutual call);
exhausted fuel is an error that never fires for fuel larger than three
times the nesting depth of the entity. -/
def findCandidates (fuel : Nat) (descr : PEntity) (state : WorldState)
    (ids : Option (List String)) : Except String (List String) :=
  match fuel with
  | 0 => .error "recursion depth exhausted"
  | fuel + 1 =>
    if descr.object.formOf = some "floor" ∧ (ids = none ∨ "floor" ∈ ids.getD []) then
      .ok ["floor"]
    else do
      let fromStacks ← state.stackList.enum.foldlM (fun acc xstack =>
        xstack.2.enum.foldlM (fun acc2 yobj =>
          if (match ids with | some l => !(l.contains yobj.2) | none => false) then pure acc2
          else do
            let wo : WorldObject := ⟨yobj.2, (xstack.1 : Int), (yobj.1 : Int)⟩
            let b ← isCandidate fuel wo descr state
            pure (if b then acc2 ++ [wo] else acc2)) acc) ([] : List WorldObject)
      let fromHolding ← (match state.holding with
        | some hId =>
          if ids = none ∨ hId ∈ ids.getD [] then do
            let b ← isCandidate fuel (⟨hId, -1, -1⟩ : WorldObject) descr state
            pure (if b then [(⟨hId, -1, -1⟩ : WorldObject)] else [])
          else pure ([] : List WorldObject)
        | none => pure ([] : List WorldObject))
      let candidates := fromStacks ++ fromHolding
      if descr.quantifier = "the" ∧ candidates.length > 1 then .error "Ambiguous entity"
      else pure (candidates.map (·.id))

/-- `Interpreter.isCandidate` (Interpreter.ts lines 323–361): scalar
properties of the innermost object must match, then every collected
location clause must hold. -/
def isCandidate (fuel : Nat) (obj : WorldObject) (descr : PEntity) (state : WorldState) :
    Except String Bool :=
  match fuel with
  | 0 => .error "recursion depth exhausted"
  | fuel + 1 =>
    let collected := collectLocs descr.object
    let props := collected.2
    let objDef := state.objects obj.id
    let validProps :=
      (match props.2.1 with | none => true | some c => decide (c = objDef.color)) &&
      (match props.1 with | none => true | some sz => decide (sz = objDef.size)) &&
      (props.2.2 = "anyform" || props.2.2 = objDef.form)
    if !validProps then .ok false
    else checkLocations fuel obj descr.quantifier state collected.1

/-- The `locations.every` closure of `isCandidate` (Interpreter.ts lines
347–360), with the TS short-circuit evaluation order. -/
def checkLocations (fuel : Nat) (obj : WorldObject) (quantifier : String)
    (state : WorldState) (locs : List PLocation) : Except String Bool :=
  match fuel, locs with
  | _, [] => .ok true
  | 0, _ :: _ => .error "recursion depth exhausted"
  | fuel + 1, location :: rest =>
      if quantifier ≠ "all" then do
        let related ← findRelated obj state.stackList location.relation
        let candidates ← findCandidates fuel location.entity state (some related)
        if candidates.isEmpty then pure false
        else checkLocations fuel obj quantifier state rest
      else do
        let related ← findRelated obj state.stackList location.relation
        let candidates ← findCandidates fuel location.entity state none
        if candidates ≠ [] ∧ candidates.all (· ∈ related) then
          checkLocations fuel obj quantifier state rest
        else pure false
end

/-- `Interpreter.equalLiterals` (Interpreter.ts lines 477–480). -/
def equalLiterals (lhs rhs : Literal) : Bool :=
  lhs.args.getD 0 "" = rhs.args.getD 0 "" ∧ lhs.args.getD 1 "" = rhs.args.getD 1 "" ∧
    lhs.polarity = rhs.polarity ∧ lhs.relation = rhs.relation

/-- `Interpreter.toCNF` (Interpreter.ts lines 424–441): one clause per
element of the outer list (arr2 when `flipped`), whose literals pair it
with every element of the other list, argument order unflipped. -/
def toCNF (arr1 arr2 : List String) (relation : String) (flipped : Bool) :
    List (List Literal) :=
  (if flipped then arr2 else arr1).map (fun elem1 =>
    (if flipped then arr1 else arr2).map (fun elem2 =>
      ⟨true, relation, if flipped then [elem2, elem1] else [elem1, elem2]⟩))

/-- One step of `Interpreter.CNFtoDNF`: fold the next clause into the
accumulated DNF by cross-product, literal-major, with the empty
accumulator seeding singleton conjunctions (Interpreter.ts lines
457–464). -/
def crossStep (curr : DNFFormula) (clause : List Literal) : DNFFormula :=
  clause.foldl (fun next literal =>
    if curr = [] then next ++ [[literal]]
    else next ++ curr.map (fun conjunction => conjunction ++ [literal])) []

/-- The inner worker of `Interpreter.CNFtoDNF` (Interpreter.ts lines
450–466). -/
def innerCNFtoDNF : DNFFormula → List (List Literal) → DNFFormula
  | curr, [] => curr
  | curr, clause :: rest => innerCNFtoDNF (crossStep curr clause) rest

/-- `Interpreter.CNFtoDNF` (Interpreter.ts lines 449–468). -/
def CNFtoDNF (conjunction : List (List Literal)) : DNFFormula :=
  innerCNFtoDNF [] conjunction

/-- The loop of `Interpreter.checkInsideOnTop`, carrying the two
occurrence lists (lhs and rhs of `ontop`/`inside` literals). -/
def checkInsideOnTopAux : List Literal → List String → List String → Bool
  | [], _, _ => true
  | literal :: rest, occ0, occ1 =>
    if literal.relation = "ontop" ∨ literal.relation = "inside" then
      let id0 := literal.args.getD 0 ""
      let id1 := literal.args.getD 1 ""
      if id0 ≠ "floor" ∧ id0 ∈ occ0 then false
      else
        let occ0' := if id0 = "floor" then occ0 else occ0 ++ [id0]
        if id1 ≠ "floor" ∧ id1 ∈ occ1 then false
        else checkInsideOnTopAux rest occ0' (if id1 = "floor" then occ1 else occ1 ++ [id1])
    else checkInsideOnTopAux rest occ0 occ1

/-- `Interpreter.checkInsideOnTop` (Interpreter.ts lines 155–169): no
non-floor id may appear twice as an `ontop`/`inside` lhs, nor twice as an
rhs, within one conjunction. -/
def checkInsideOnTop (conjunction : List Literal) : Bool :=
  checkInsideOnTopAux conjunction [] []

/-- The `ObjDesc` of the rhs at the `isValidRelation` call sites of
`interpretMove`/`interpretPut` (non-"all" branches): the floor sentinel
`{form: "floor"}` has no size. -/
def rhsDesc (state : WorldState) (id : String) : ObjDesc :=
  if id = "floor" then ⟨some "floor", none⟩
  else ⟨some (state.objects id).form, some (state.objects id).size⟩

/-- The rhs at the "all"-branch filters, where the floor sentinel is
`{form: "floor", size: ""}` (an empty-string size, not an absent one). -/
def rhsDescAll (state : WorldState) (id : String) : ObjDesc :=
  if id = "floor" then ⟨some "floor", some ""⟩
  else ⟨some (state.objects id).form, some (state.objects id).size⟩

/-- The lhs `ObjDesc` of a world object. -/
def lhsDesc (state : WorldState) (id : String) : ObjDesc :=
  ⟨some (state.objects id).form, some (state.objects id).size⟩

/-- `Interpreter.interpretMove` (Interpreter.ts lines 180–240). -/
def interpretMove (cmd : Command) (state : WorldState)
    (candidates relativeToCandidates : List String) : Except String DNFFormula :=
  match cmd.entity, cmd.location with
  | some ent, some location =>
    if ent.quantifier ≠ "all" ∧ location.entity.quantifier ≠ "all" then
      .ok (candidates.flatMap (fun candidate =>
        relativeToCandidates.filterMap (fun relativeTo =>
          if candidate = relativeTo then none
          else if isValidRelation (lhsDesc state candidate) location.relation
              (rhsDesc state relativeTo) then
            some [⟨true, location.relation, [candidate, relativeTo]⟩]
          else none)))
    else
      let dnf := CNFtoDNF (toCNF candidates relativeToCandidates location.relation
        (location.entity.quantifier = "all"))
      let filtered := dnf.filter (fun conjunction => conjunction.all (fun literal =>
        isValidRelation (lhsDesc state (literal.args.getD 0 "")) literal.relation
          (rhsDescAll state (literal.args.getD 1 ""))))
      if ent.quantifier = "all" ∧ location.entity.quantifier = "all" then
        .ok [filtered.foldl (fun acc conjunction =>
          conjunction.foldl (fun acc2 literal =>
            if acc2.any (fun elem => equalLiterals elem literal) then acc2
            else acc2 ++ [literal]) acc) []]
      else .ok filtered
  | _, _ => .error "TypeError"

/-- `Interpreter.interpretTake` (Interpreter.ts lines 250–259): with
quantifier "all" at most one candidate may remain; one single-literal
disjunct `holding(c)` per candidate. -/
def interpretTake (command : Command) (worldState : WorldState)
    (candidates : List String) : Except String DNFFormula :=
  match command.entity with
  | some ent =>
    if candidates.length > 1 ∧ ent.quantifier = "all" then
      .error "Can only take a single object"
    else
      .ok (candidates.map (fun candidate => [⟨true, "holding", [candidate]⟩]))
  | none => .error "TypeError"

/-- `Interpreter.interpretPut` (Interpreter.ts lines 269–313).  Note the
"all"-branch filter reads `literal.args[0]` for the relative object,
exactly as the source does. -/
def interpretPut (cmd : Command) (state : WorldState)
    (relativeToCandidates : List String) : Except String DNFFormula :=
  match cmd.location with
  | some location =>
    match state.holding with
    | none => .error "Not holding any object"
    | some held =>
      if location.entity.quantifier ≠ "all" then
        .ok (relativeToCandidates.filterMap (fun relativeTo =>
          if held = relativeTo then none
          else if isValidRelation (lhsDesc state held) location.relation
              (rhsDesc state relativeTo) then
            some [⟨true, location.relation, [held, relativeTo]⟩]
          else none))
      else
        let dnf := CNFtoDNF (toCNF [held] relativeToCandidates location.relation true)
        .ok (dnf.filter (fun conjunction => conjunction.all (fun literal =>
          isValidRelation (lhsDesc state held) literal.relation
            (rhsDescAll state (literal.args.getD 0 "")))))
  | none => .error "TypeError"

/-- `Interpreter.interpretCommand` (Interpreter.ts lines 106–145): resolve
the referring expressions, dispatch on the command, filter with
`checkInsideOnTop`, and fail on an empty result. -/
def interpretCommand (fuel : Nat) (cmd : Command) (state : WorldState) :
    Except String DNFFormula := do
  let candidates ←
    (if cmd.command = "move" ∨ cmd.command = "take" then
      match cmd.entity with
      | none => .error "No entity specified in move"
      | some ent => do
        let cs ← findCandidates fuel ent state none
        if cs.length < 1 then .error "No such entity found"
        else if "floor" ∈ cs then .error "Can not pick up the floor"
        else pure cs
    else pure [])
  let relativeToCandidates ←
    (if cmd.command = "move" ∨ cmd.command = "put" then
      match cmd.location with
      | none => .error "TypeError"
      | some location =>
        findCandidates fuel location.entity state
          (if location.entity.object.formOf = some "floor" then some ["floor"] else none)
    else pure [])
  let interpretation ←
    (if cmd.command = "move" then interpretMove cmd state candidates relativeToCandidates
    else if cmd.command = "take" then interpretTake cmd state candidates
    else if cmd.command = "put" then interpretPut cmd state relativeToCandidates
    else .error "Unknown command")
  let filtered := interpretation.filter checkInsideOnTop
  if filtered.length ≤ 0 then .error "No valid solution found for the utterance"
  else pure filtered

/-! ## Path predicates and state invariants -/

/-- A nonempty node sequence is linked by the edge sequence `es` when each
consecutive pair is connected by an edge produced by `g.outgoingEdges` on
the earlier node. -/
def linked [DecidableEq Node] (g : Graph Node) : List Node → List (Edge Node) → Bool
  | _ :: [], [] => true
  | u :: v :: rest, e :: es =>
    (e ∈ g.outgoingEdges u) && (e.dst = v) && linked g (v :: rest) es
  | _, _ => false

/-- Well-formed frontier items of `aStarLoop`: the start item, or an item
reached from a well-formed item by an outgoing edge, with the accumulated
cost. -/
inductive ValidF [DecidableEq Node] (g : Graph Node) (start : Node) :
    FrontierNode Node → Prop where
  | root : ValidF g start ⟨start, none, 0⟩
  | step {p : FrontierNode Node} {e : Edge Node} :
      ValidF g start p → e ∈ g.outgoingEdges p.node →
      ValidF g start ⟨e.dst, some p, p.cost + e.cost⟩

/-- All identifiers of a search state: the stacks flattened, then the held
object. -/
def stateIds (s : SearchState) : List String :=
  s.stackList.flatten ++ (match s.holding with | some x => [x] | none => [])

/-- Number of objects in a search state (stacks plus hand). -/
def countIds (s : SearchState) : Nat := (stateIds s).length

/-- The §3.1 well-formedness of a state: all identifiers are distinct (in
particular the held object does not also sit in a stack). -/
def WFState (s : SearchState) : Prop := (stateIds s).Nodup

/-! ## Claim-shaped reference definitions -/

/-- The "total number of objects" of a world snapshot read off the claim's
words: every object of the world, a held one included. -/
def specTotalObjects (w : WorldState) : Nat :=
  (w.stackList.map List.length).sum + (match w.holding with | some _ => 1 | none => 0)

/-- The four candidate moves exactly as claim C4 words them: arm-left iff
`arm > 0` and arm-right iff `arm < |stacks| - 1`, with cost 1 (empty hand),
3 (carrying normal) or 5 (carrying large); pick iff nothing is held and the
column is non-empty, costing `1 + 10·(N − h)/N`; drop iff holding and the
column is empty (cost `1 + 10`) or `can_support(held, rel, top)` holds with
`rel = inside` when the top is a box and `ontop` otherwise (cost
`1 + 10·(N − h)/N`), where `h` is the current column's height and `N` the
graph's object count. -/
def outgoingEdgesSpec (g : SearchStateGraph) (node : SearchState) :
    List (Edge SearchState) :=
  let col := node.stackList.getD node.arm []
  let N : ℚ := (g.numObjects : ℚ)
  let moveCost : ℚ :=
    match node.holding with
    | none => 1
    | some h => if (g.worldObjects h).size = "large" then 5 else 3
  (if 0 < node.arm then
    [⟨node, ⟨node.stackList, node.holding, node.arm - 1⟩, moveCost⟩] else []) ++
  (if node.arm < node.stackList.length - 1 then
    [⟨node, ⟨node.stackList, node.holding, node.arm + 1⟩, moveCost⟩] else []) ++
  (match node.holding with
   | none =>
     if col ≠ [] then
       [⟨node, ⟨node.stackList.set node.arm col.dropLast, col.getLast?, node.arm⟩,
         1 + 10 * (N - (col.length : ℚ)) / N⟩]
     else []
   | some x =>
     if col = [] then
       [⟨node, ⟨node.stackList.set node.arm (col ++ [x]), none, node.arm⟩, 1 + 10⟩]
     else if isValidRelation (descOf g x)
         (if (g.worldObjects ((col.getLast?).getD "")).form = "box" then "inside" else "ontop")
         (descOf g ((col.getLast?).getD "")) then
       [⟨node, ⟨node.stackList.set node.arm (col ++ [x]), none, node.arm⟩,
         1 + 10 * (N - (col.length : ℚ)) / N⟩]
     else [])

/-- Default search state (used as the out-of-range placeholder of indexed
path access). -/
def dfltState : SearchState := ⟨[], none, 0⟩

/-- Transition `i` of a path is a pick: arms equal, empty hand to
holding. -/
def isPickAt (path : List SearchState) (i : Nat) : Bool :=
  let c := path.getD i dfltState
  let n := path.getD (i + 1) dfltState
  ¬ n.arm < c.arm ∧ ¬ c.arm < n.arm ∧ c.holding = none ∧ n.holding ≠ none

/-- Transition `i` of a path is a drop: arms equal, holding to empty
hand. -/
def isDropAt (path : List SearchState) (i : Nat) : Bool :=
  let c := path.getD i dfltState
  let n := path.getD (i + 1) dfltState
  ¬ n.arm < c.arm ∧ ¬ c.arm < n.arm ∧ c.holding ≠ none ∧ n.holding = none

/-- Whether a pick message is pending at transition `i` given that the
walk started with pending status `init`: the most recent pick/drop
transition before `i` is a pick (`init` when there is none). -/
def pickActiveFrom (init : Bool) (path : List SearchState) (i : Nat) : Bool :=
  match (List.range i).reverse.find? (fun j => isPickAt path j || isDropAt path j) with
  | some j => isPickAt path j
  | none => init

/-- "A prior pick message was emitted in this segment" at transition `i`
(claim C9): some pick happened and no drop since. -/
def pickActive (path : List SearchState) (i : Nat) : Bool :=
  pickActiveFrom false path i

/-- The full property description the renderer actually emits:
`"size color form"`. -/
def fullDesc (objects : String → ObjectDefinition) (id : String) : String :=
  (objects id).size ++ " " ++ (objects id).color ++ " " ++ (objects id).form

/-- One rendered transition, written the way claim C9 (as amended) words
§4.5: `l`/`r` on arm moves; `Taking`/`Moving` + `p` on picks, `Taking` iff
the pick is the final transition of the path; `Dropping` + `d` on drops
with no prior pick message in the segment, bare `d` otherwise. -/
def stepRender (objects : String → ObjectDefinition) (path : List SearchState)
    (init : Bool) (i : Nat) : List String :=
  let c := path.getD i dfltState
  let n := path.getD (i + 1) dfltState
  if n.arm < c.arm then ["l"]
  else if c.arm < n.arm then ["r"]
  else
    match c.holding, n.holding with
    | none, some hId =>
      [(if i = path.length - 2 then "Taking" else "Moving") ++ " the " ++
        fullDesc objects hId, "p"]
    | some hId, none =>
      if pickActiveFrom init path i then ["d"]
      else ["Dropping the " ++ fullDesc objects hId, "d"]
    | _, _ => []

/-- The declarative renderer of claim C9 as amended: all transitions
rendered in order, with no pick pending initially. -/
def renderSpec (objects : String → ObjectDefinition) (path : List SearchState) :
    List String :=
  (List.range (path.length - 1)).flatMap (stepRender objects path false)

/-- Property lookup on an object definition by property name (for the
§4.6 shortest-description tuples). -/
def getProp (d : ObjectDefinition) (p : String) : String :=
  if p = "form" then d.form else if p = "color" then d.color else d.size

/-- The shortest unambiguous description exactly as claim C9 words §4.6:
try `[form]`, `[color, form]`, `[size, form]` in order, accept the first
that no other object currently present in the stacks matches, fall back to
`[size, color, form]`; join the values with spaces. -/
def claimedDesc (objects : String → ObjectDefinition)
    (stackList : List (List String)) (key : String) : String :=
  let tuples : List (List String) := [["form"], ["color", "form"], ["size", "form"]]
  let isUniq := fun (tuple : List String) =>
    stackList.all (fun col => col.all (fun other =>
      other = key || !(tuple.all (fun p => getProp (objects key) p = getProp (objects other) p))))
  let selected := ((tuples.filter isUniq).head?).getD ["size", "color", "form"]
  String.intercalate " " (selected.map (getProp (objects key)))

/-- Whether transition `i` is the last pick of the path. -/
def isLastPick (path : List SearchState) (i : Nat) : Bool :=
  ((List.range (path.length - 1)).filter (fun j => isPickAt path j)).getLast? = some i

/-- The renderer exactly as claim C9 states it: `Taking` iff the pick is
the last pick in the path, and descriptions via the §4.6 shortest
unambiguous description (computed over the stacks of the state before the
transition). -/
def claimedStepRender (objects : String → ObjectDefinition) (path : List SearchState)
    (i : Nat) : List String :=
  let c := path.getD i dfltState
  let n := path.getD (i + 1) dfltState
  if n.arm < c.arm then ["l"]
  else if c.arm < n.arm then ["r"]
  else
    match c.holding, n.holding with
    | none, some hId =>
      [(if isLastPick path i then "Taking" else "Moving") ++ " the " ++
        claimedDesc objects c.stackList hId, "p"]
    | some hId, none =>
      if pickActive path i then ["d"]
      else ["Dropping the " ++ claimedDesc objects c.stackList hId, "d"]
    | _, _ => []

/-- The rendered plan exactly as claim C9 states it. -/
def claimedRender (objects : String → ObjectDefinition) (path : List SearchState) :
    List String :=
  (List.range (path.length - 1)).flatMap (claimedStepRender objects path)

/-! ## Concrete instances used by counterexamples and witnesses -/

/-- Objects of the cost counterexample world: a large table `a`, a small
brick `b`. -/
def cexObjects : String → ObjectDefinition := fun id =>
  if id = "a" then ⟨"table", "large", "red"⟩
  else if id = "b" then ⟨"brick", "small", "blue"⟩
  else ⟨"ball", "small", "white"⟩

/-- A world that is already holding `b`: two columns, `a` in the first,
hand over column 0.  Its graph counts `numObjects = 1` (the held `b` is
not counted). -/
def cexWorld : WorldState := ⟨[["a"], []], some "b", 0, cexObjects⟩

/-- The search-state graph of `cexWorld`. -/
def cexGraph : SearchStateGraph := mkSearchStateGraph cexWorld

/-- Goal: hold the table `a`. -/
def cexPhi : DNFFormula := [[⟨true, "holding", ["a"]⟩]]

/-- The start state of `cexWorld`. -/
def cexS0 : SearchState := ⟨[["a"], []], some "b", 0⟩

/-- After dropping `b` onto `a`. -/
def cexS1 : SearchState := ⟨[["a", "b"], []], none, 0⟩

/-- After moving right carrying `b`. -/
def cexS5 : SearchState := ⟨[["a"], []], some "b", 1⟩

/-- After dropping `b` on the empty column. -/
def cexS6 : SearchState := ⟨[["a"], ["b"]], none, 1⟩

/-- After moving back left. -/
def cexS7 : SearchState := ⟨[["a"], ["b"]], none, 0⟩

/-- After picking `a`: the goal state. -/
def cexS8 : SearchState := ⟨[[], ["b"]], some "a", 0⟩

/-- A successor-path from `cexS0` to the goal that runs the
drop-on-`a`/re-pick cycle twice: the negative pick cost (height 2 exceeds
`numObjects = 1`) drives its total cost down to `0`. -/
def cexPath : List SearchState :=
  [cexS0, cexS1, cexS0, cexS1, cexS0, cexS5, cexS6, cexS7, cexS8]

/-- The edges of `cexPath` with the costs produced by `outgoingEdges`. -/
def cexEdges : List (Edge SearchState) :=
  [⟨cexS0, cexS1, 1⟩, ⟨cexS1, cexS0, -9⟩, ⟨cexS0, cexS1, 1⟩, ⟨cexS1, cexS0, -9⟩,
   ⟨cexS0, cexS5, 3⟩, ⟨cexS5, cexS6, 11⟩, ⟨cexS6, cexS7, 1⟩, ⟨cexS7, cexS8, 1⟩]

/-- Objects of the witness worlds: a small white ball `a`, anything else a
large red table. -/
def witObjects : String → ObjectDefinition := fun id =>
  if id = "a" then ⟨"ball", "small", "white"⟩ else ⟨"table", "large", "red"⟩

/-- A one-column world with the single ball `a`, hand empty. -/
def witWorld : WorldState := ⟨[["a"]], none, 0, witObjects⟩

/-- Goal: hold `a`. -/
def witPhi : DNFFormula := [[⟨true, "holding", ["a"]⟩]]

/-- The entity "the box" (matches nothing in `witWorld`). -/
def theBox : PEntity := ⟨"the", .simple none none "box"⟩

/-- The entity "the ball". -/
def theBall : PEntity := ⟨"the", .simple none none "ball"⟩

/-- The command "take the ball". -/
def takeTheBall : Command := ⟨"take", some theBall, none⟩

/-- A state holding `b` over an empty single-column world (C3 witness
state: the goal `holding(b)` already holds). -/
def witHoldState : SearchState := ⟨[[]], some "b", 0⟩

/-- Goal: hold `b`. -/
def witPhiB : DNFFormula := [[⟨true, "holding", ["b"]⟩]]

/-- A two-edge line graph on `ℕ` for the A* witness. -/
def natLineGraph : Graph Nat :=
  ⟨fun n => if n < 2 then [⟨n, n + 1, 1⟩] else []⟩

/-- Objects of the renderer counterexample: ball `x`, a large red table
otherwise. -/
def rObjects : String → ObjectDefinition := fun id =>
  if id = "x" then ⟨"ball", "small", "white"⟩ else ⟨"table", "large", "red"⟩

/-- A pick-then-drop path: `x` is lifted off `y` and put back. -/
def rPath : List SearchState :=
  [⟨[["y", "x"]], none, 0⟩, ⟨[["y"]], some "x", 0⟩, ⟨[["y", "x"]], none, 0⟩]

/-- Literals for the CNF→DNF witness. -/
def litA : Literal := ⟨true, "ontop", ["a", "b"]⟩

/-- Second witness literal. -/
def litB : Literal := ⟨true, "ontop", ["c", "d"]⟩

/-- Third witness literal. -/
def litC : Literal := ⟨true, "ontop", ["e", "f"]⟩

-- Results of fallible computations are compared in witnesses.
deriving instance DecidableEq for Except

/-- An identifier is present in a state: in some stack or held. -/
def presentIn (s : SearchState) (z : String) : Prop := z ∈ stateIds s

/-- The presence facts about a literal's arguments that the per-literal
heuristic estimates depend on: the first argument for `holding`, both
arguments for `leftof`/`rightof`, nothing otherwise. -/
def litArgsPresent (s : SearchState) (literal : Literal) : Prop :=
  if literal.relation = "holding" then presentIn s (literal.args.getD 0 "")
  else if literal.relation = "leftof" ∨ literal.relation = "rightof" then
    presentIn s (literal.args.getD 0 "") ∧ presentIn s (literal.args.getD 1 "")
  else True

/-! # Theorems

Everything from here on is a statement about the definitions above.
-/

/-! ## Claim C8: under/above symmetry of `isValidRelation` -/

/-- C8 (confirmed): for all object descriptions `a` and `b`,
`can_support(a, "under", b) ↔ can_support(b, "above", a)`: the `under`
branch of `isValidRelation` is exactly the `above` check on the swapped
arguments. -/
theorem isValidRelation_under_above_symm (a b : ObjDesc) :
    isValidRelation a "under" b = isValidRelation b "above" a := by
  simp [isValidRelation]

/-! ## Claim C7: the CNF→DNF distribution law -/

/-- Seeding step: folding a clause over the empty accumulator produces the
singleton conjunctions. -/
lemma crossStep_nil_left (clause : List Literal) :
    crossStep [] clause = clause.map (fun l => [l]) := by
  have H : ∀ acc : DNFFormula,
      clause.foldl (fun next literal => next ++ [[literal]]) acc
      = acc ++ clause.map (fun l => [l]) := by
    induction clause with
    | nil => intro acc; simp
    | cons l ls ih => intro acc; simp [ih]
  unfold crossStep
  simpa using H []

/-- Length of one cross-product step over a nonempty accumulator. -/
lemma crossStep_length (curr : DNFFormula) (clause : List Literal) (h : curr ≠ []) :
    (crossStep curr clause).length = clause.length * curr.length := by
  have H : ∀ (cl : List Literal) (acc : DNFFormula),
      (cl.foldl (fun next literal =>
        next ++ curr.map (fun conjunction => conjunction ++ [literal])) acc).length
      = acc.length + cl.length * curr.length := by
    intro cl
    induction cl with
    | nil => intro acc; simp
    | cons l ls ih =>
      intro acc
      rw [List.foldl_cons, ih]
      simp [List.length_append]
      ring
  unfold crossStep
  have hfun : (fun (next : DNFFormula) (literal : Literal) =>
      if curr = [] then next ++ [[literal]]
      else next ++ curr.map (fun conjunction => conjunction ++ [literal]))
      = fun next literal => next ++ curr.map (fun conjunction => conjunction ++ [literal]) := by
    funext next literal
    rw [if_neg h]
  rw [hfun]
  simpa using H clause []

/-- Membership in one cross-product step over a nonempty accumulator. -/
lemma crossStep_mem (curr : DNFFormula) (clause : List Literal) (h : curr ≠ [])
    (conj : Conjunction) (hm : conj ∈ crossStep curr clause) :
    ∃ c ∈ curr, ∃ l ∈ clause, conj = c ++ [l] := by
  have H : ∀ (cl : List Literal) (acc : DNFFormula),
      conj ∈ cl.foldl (fun next literal =>
        next ++ curr.map (fun conjunction => conjunction ++ [literal])) acc →
      conj ∈ acc ∨ ∃ c ∈ curr, ∃ l ∈ cl, conj = c ++ [l] := by
    intro cl
    induction cl with
    | nil => intro acc hacc; exact Or.inl hacc
    | cons l ls ih =>
      intro acc hacc
      rw [List.foldl_cons] at hacc
      rcases ih _ hacc with h' | ⟨c, hc, l', hl', rfl⟩
      · rcases List.mem_append.mp h' with h' | h'
        · exact Or.inl h'
        · rcases List.mem_map.mp h' with ⟨c, hc, rfl⟩
          exact Or.inr ⟨c, hc, l, by simp, rfl⟩
      · exact Or.inr ⟨c, hc, l', by simp [hl'], rfl⟩
  unfold crossStep at hm
  have hfun : (fun (next : DNFFormula) (literal : Literal) =>
      if curr = [] then next ++ [[literal]]
      else next ++ curr.map (fun conjunction => conjunction ++ [literal]))
      = fun next literal => next ++ curr.map (fun conjunction => conjunction ++ [literal]) := by
    funext next literal
    rw [if_neg h]
  rw [hfun] at hm
  rcases H clause [] hm with h' | h'
  · simp at h'
  · exact h'

/-- A cross-product step over nonempty inputs is nonempty. -/
lemma crossStep_ne_nil (curr : DNFFormula) (clause : List Literal)
    (h : curr ≠ []) (hc : clause ≠ []) : crossStep curr clause ≠ [] := by
  intro hemp
  have hl := crossStep_length curr clause h
  rw [hemp] at hl
  simp at hl
  rcases hl with h' | h'
  · exact hc h'
  · exact h h'

/-- Length of the iterated cross-product. -/
lemma innerCNFtoDNF_length :
    ∀ (rest : List (List Literal)) (curr : DNFFormula), curr ≠ [] →
    (∀ clause ∈ rest, clause ≠ []) →
    (innerCNFtoDNF curr rest).length = curr.length * (rest.map List.length).prod := by
  intro rest
  induction rest with
  | nil => intro curr h _; simp [innerCNFtoDNF]
  | cons clause rest ih =>
    intro curr h hcl
    have hc : clause ≠ [] := hcl clause (by simp)
    rw [show innerCNFtoDNF curr (clause :: rest) = innerCNFtoDNF (crossStep curr clause) rest
        from rfl]
    rw [ih _ (crossStep_ne_nil curr clause h hc) (fun c hc' => hcl c (by simp [hc']))]
    rw [crossStep_length curr clause h]
    simp [List.prod_cons]
    ring

/-- Every conjunction of the iterated cross-product (over non-empty
clauses) extends a conjunction of the accumulator by one literal from each
remaining clause, in clause order. -/
lemma innerCNFtoDNF_mem :
    ∀ (rest : List (List Literal)) (curr : DNFFormula), curr ≠ [] →
    (∀ clause ∈ rest, clause ≠ []) →
    ∀ conj ∈ innerCNFtoDNF curr rest,
      ∃ c ∈ curr, ∃ ext, conj = c ++ ext ∧
        List.Forall₂ (fun (l : Literal) (clause : List Literal) => l ∈ clause) ext rest := by
  intro rest
  induction rest with
  | nil =>
    intro curr _ _ conj hm
    exact ⟨conj, hm, [], by simp, List.Forall₂.nil⟩
  | cons clause rest ih =>
    intro curr h hcl conj hm
    have hc : clause ≠ [] := hcl clause (by simp)
    rw [show innerCNFtoDNF curr (clause :: rest) = innerCNFtoDNF (crossStep curr clause) rest
        from rfl] at hm
    rcases ih _ (crossStep_ne_nil curr clause h hc) (fun c hc' => hcl c (by simp [hc']))
        conj hm with ⟨c', hc', ext, rfl, hforall⟩
    rcases crossStep_mem curr clause h c' hc' with ⟨c, hcm, l, hl, rfl⟩
    exact ⟨c, hcm, [l] ++ ext, by simp, List.Forall₂.cons hl hforall⟩

/-- C7 counterexample: on the empty CNF (all of whose clauses are
non-empty, vacuously) `CNFtoDNF` returns the empty DNF, whose zero
conjunctions differ from the empty product `1` of clause sizes. -/
theorem CNFtoDNF_empty_cex :
    CNFtoDNF ([] : List (List Literal)) = [] ∧
    (CNFtoDNF ([] : List (List Literal))).length ≠
      (([] : List (List Literal)).map List.length).prod := by
  constructor
  · rfl
  · decide

/-- C7 as amended (for every *non-empty* CNF all of whose clauses are
non-empty): the DNF size is the product of the clause sizes, and every
returned conjunction is a choice function over the CNF clauses — exactly
one literal from each clause, in clause order. -/
theorem CNFtoDNF_choice_spec (cnf : List (List Literal)) (h1 : cnf ≠ [])
    (h2 : ∀ clause ∈ cnf, clause ≠ []) :
    (CNFtoDNF cnf).length = (cnf.map List.length).prod ∧
    ∀ conj ∈ CNFtoDNF cnf,
      List.Forall₂ (fun (l : Literal) (clause : List Literal) => l ∈ clause) conj cnf := by
  rcases List.exists_cons_of_ne_nil h1 with ⟨clause, rest, rfl⟩
  have hc : clause ≠ [] := h2 clause (by simp)
  have hstep : CNFtoDNF (clause :: rest) =
      innerCNFtoDNF (clause.map (fun l => [l])) rest := by
    show innerCNFtoDNF (crossStep [] clause) rest = _
    rw [crossStep_nil_left]
  have hne : clause.map (fun l => [l]) ≠ [] := by
    simpa using hc
  constructor
  · rw [hstep, innerCNFtoDNF_length rest _ hne (fun c hc' => h2 c (by simp [hc']))]
    simp [List.prod_cons]
  · intro conj hm
    rw [hstep] at hm
    rcases innerCNFtoDNF_mem rest _ hne (fun c hc' => h2 c (by simp [hc'])) conj hm with
      ⟨c, hcm, ext, rfl, hforall⟩
    rcases List.mem_map.mp hcm with ⟨l, hl, rfl⟩
    exact List.Forall₂.cons hl hforall

/-- Witness for the amended C7 at the CNF `[[litA], [litB, litC]]`: two
conjunctions (`1·2`), each a choice function. -/
theorem CNFtoDNF_choice_spec_witness :
    (CNFtoDNF [[litA], [litB, litC]]).length = ([[litA], [litB, litC]].map List.length).prod ∧
    ∀ conj ∈ CNFtoDNF [[litA], [litB, litC]],
      List.Forall₂ (fun (l : Literal) (clause : List Literal) => l ∈ clause) conj
        [[litA], [litB, litC]] :=
  CNFtoDNF_choice_spec [[litA], [litB, litC]] (by decide) (by decide)

/-! ## Claim C6: quantifier "the" in `findCandidates` -/

/-- C6 as amended: whenever `findCandidates` succeeds on an entity with
quantifier "the", it returns *at most* one candidate (the overspill case
fails with "Ambiguous entity"); an empty result is possible. -/
theorem findCandidates_the_le_one (fuel : Nat) (descr : PEntity) (state : WorldState)
    (ids : Option (List String)) (cs : List String)
    (hres : findCandidates fuel descr state ids = .ok cs)
    (hq : descr.quantifier = "the") : cs.length ≤ 1 := by
  match fuel with
  | 0 => simp [findCandidates] at hres
  | fuel + 1 =>
    rw [findCandidates] at hres
    split at hres
    · injection hres with h
      simp [← h]
    · rw [hq] at hres
      simp only [bind, Except.bind, pure, Except.pure] at hres
      split at hres
      · exact absurd hres (by simp)
      · split at hres
        · exact absurd hres (by simp)
        · split at hres
          · exact absurd hres (by simp)
          · rename_i hnot
            injection hres with h
            simp at hnot
            rw [← h]
            simpa using hnot

/-- C6 counterexample: resolving "the box" in a world containing only a
ball succeeds with the *empty* candidate list — neither exactly one
candidate nor an Ambiguous failure. -/
theorem findCandidates_the_empty_cex :
    findCandidates 9 theBox witWorld none = .ok [] ∧
    theBox.quantifier = "the" ∧
    ([] : List String).length ≠ 1 := by
  refine ⟨by decide, by decide, by decide⟩

/-- Witness for the amended C6: "the ball" resolves to exactly `["a"]`,
and the theorem bounds its size by one. -/
theorem findCandidates_the_le_one_witness :
    findCandidates 9 theBall witWorld none = .ok ["a"] ∧ (["a"] : List String).length ≤ 1 :=
  ⟨by decide, findCandidates_the_le_one 9 theBall witWorld none ["a"] (by decide) (by decide)⟩

/-! ## Claim C5: the take command -/

/-- A single-literal `holding` conjunction passes the inside/ontop
pruning. -/
lemma checkInsideOnTop_holding (c : String) :
    checkInsideOnTop [⟨true, "holding", [c]⟩] = true := by
  simp [checkInsideOnTop, checkInsideOnTopAux]

/-- C5 (confirmed): for a take command whose entity resolves to the
candidate set `cs`, interpretation fails when `cs` is empty, fails when it
contains the floor, fails when the quantifier is "all" and more than one
candidate resolved, and otherwise returns exactly one single-literal
disjunct `holding(c)` per candidate. -/
theorem interpretCommand_take_spec (fuel : Nat) (ent : PEntity) (state : WorldState)
    (cs : List String) (hres : findCandidates fuel ent state none = .ok cs) :
    (cs = [] →
      interpretCommand fuel ⟨"take", some ent, none⟩ state = .error "No such entity found") ∧
    ("floor" ∈ cs →
      interpretCommand fuel ⟨"take", some ent, none⟩ state =
        .error "Can not pick up the floor") ∧
    (cs ≠ [] → "floor" ∉ cs → ent.quantifier = "all" → 1 < cs.length →
      interpretCommand fuel ⟨"take", some ent, none⟩ state =
        .error "Can only take a single object") ∧
    (cs ≠ [] → "floor" ∉ cs → ¬(ent.quantifier = "all" ∧ 1 < cs.length) →
      interpretCommand fuel ⟨"take", some ent, none⟩ state =
        .ok (cs.map (fun c => [⟨true, "holding", [c]⟩]))) := by
  refine ⟨?_, ?_, ?_, ?_⟩
  · intro hnil
    subst hnil
    simp [interpretCommand, hres, bind, Except.bind]
  · intro hfl
    have hne : cs ≠ [] := List.ne_nil_of_mem hfl
    simp [interpretCommand, hres, bind, Except.bind, hne, hfl]
  · intro hne hfl hq hlen
    simp [interpretCommand, hres, bind, Except.bind, pure, Except.pure, hne, hfl,
      interpretTake, hq, hlen]
  · intro hne hfl hnall
    have htake : interpretTake ⟨"take", some ent, none⟩ state cs =
        .ok (cs.map (fun c => [⟨true, "holding", [c]⟩])) := by
      simp only [interpretTake]
      rw [if_neg]
      intro h'
      exact hnall ⟨h'.2, h'.1⟩
    have hfilter : (cs.map (fun c => ([⟨true, "holding", [c]⟩] : Conjunction))).filter
        checkInsideOnTop = cs.map (fun c => [⟨true, "holding", [c]⟩]) := by
      apply List.filter_eq_self.mpr
      intro conj hconj
      rcases List.mem_map.mp hconj with ⟨c, _, rfl⟩
      exact checkInsideOnTop_holding c
    rcases List.exists_mem_of_ne_nil cs hne with ⟨c0, hc0⟩
    have hnall2 : ¬ ∀ conj ∈ cs.map (fun c => ([⟨true, "holding", [c]⟩] : Conjunction)),
        checkInsideOnTop conj = false := by
      intro hall
      have := hall [⟨true, "holding", [c0]⟩] (List.mem_map.mpr ⟨c0, hc0, rfl⟩)
      rw [checkInsideOnTop_holding] at this
      simp at this
    simp [interpretCommand, hres, bind, Except.bind, pure, Except.pure, hne, hfl, htake,
      hnall2, hfilter]

/-- Witness for C5: "take the ball" in the one-ball world resolves to
`["a"]` and interprets to the single disjunct `[holding(a)]`. -/
theorem interpretCommand_take_spec_witness :
    interpretCommand 9 takeTheBall witWorld =
      .ok ((["a"] : List String).map (fun c => [⟨true, "holding", [c]⟩])) :=
  (interpretCommand_take_spec 9 theBall witWorld ["a"] (by decide)).2.2.2
    (by decide) (by decide) (by decide)

/-! ## The edge inversion lemma (shared by C1, C3, C4, C10) -/

/-- Every edge of `SearchStateGraph.outgoingEdges` is one of the four
candidate moves, with its guard, successor state and exact cost. -/
lemma outgoingEdges_cases (g : SearchStateGraph) (s : SearchState) (e : Edge SearchState)
    (he : e ∈ g.outgoingEdges s) :
    (0 < s.arm ∧ e.dst = ⟨s.stackList, s.holding, s.arm - 1⟩ ∧
      e.cost = 1 + (match s.holding with
        | none => (0 : ℚ)
        | some h => 2 + (if (g.worldObjects h).size = "large" then 2 else 0))) ∨
    (s.arm < s.stackList.length - 1 ∧ e.dst = ⟨s.stackList, s.holding, s.arm + 1⟩ ∧
      e.cost = 1 + (match s.holding with
        | none => (0 : ℚ)
        | some h => 2 + (if (g.worldObjects h).size = "large" then 2 else 0))) ∨
    (s.holding = none ∧ s.stackList.getD s.arm [] ≠ [] ∧
      e.dst = ⟨s.stackList.set s.arm (s.stackList.getD s.arm []).dropLast,
        (s.stackList.getD s.arm []).getLast?, s.arm⟩ ∧
      e.cost = 1 + 10 * ((g.numObjects : ℚ) - ((s.stackList.getD s.arm []).length : ℚ)) /
        (g.numObjects : ℚ)) ∨
    (∃ x, s.holding = some x ∧
      e.dst = ⟨s.stackList.set s.arm (s.stackList.getD s.arm [] ++ [x]), none, s.arm⟩ ∧
      ((s.stackList.getD s.arm [] = [] ∧ e.cost = 1 + 10) ∨
       (s.stackList.getD s.arm [] ≠ [] ∧
        isValidRelation (descOf g x)
          (if (g.worldObjects (((s.stackList.getD s.arm []).getLast?).getD "")).form = "box"
            then "inside" else "ontop")
          (descOf g (((s.stackList.getD s.arm []).getLast?).getD "")) = true ∧
        e.cost = 1 + 10 * ((g.numObjects : ℚ) - ((s.stackList.getD s.arm []).length : ℚ)) /
          (g.numObjects : ℚ)))) := by
  unfold SearchStateGraph.outgoingEdges at he
  simp only [List.mem_append] at he
  rcases he with (he | he) | he
  · left
    split at he
    · simp at he
      subst he
      simp_all
    · simp at he
  · right; left
    split at he
    · simp at he
      subst he
      simp_all
    · simp at he
  · rcases hh : s.holding with _ | x
    · rw [hh] at he
      simp only at he
      split at he
      · simp at he
      · right; right; left
        simp at he
        subst he
        simp_all
    · rw [hh] at he
      simp only at he
      right; right; right
      refine ⟨x, rfl, ?_⟩
      split at he
      · simp at he
        subst he
        simp_all
      · split at he
        · simp at he
          obtain ⟨hvalid, rfl⟩ := he
          simp_all
        · simp at he
          obtain ⟨hvalid, rfl⟩ := he
          simp_all

/-! ## Claim C4: the four candidate moves -/

/-- C4 as amended (with `N` the number of objects in the stacks of the
construction snapshot, i.e. `g.numObjects`, rather than the total object
count): on §3.1-well-formed states `outgoingEdges` produces exactly the
four candidate moves with the claimed guards and costs. -/
theorem outgoingEdges_spec_eq (g : SearchStateGraph) (s : SearchState)
    (harm : s.arm < s.stackList.length) :
    g.outgoingEdges s = outgoingEdgesSpec g s := by
  have h1 : (1 : ℚ) + (2 + 2) = 5 := by norm_num
  have h2 : (1 : ℚ) + (2 + 0) = 3 := by norm_num
  unfold SearchStateGraph.outgoingEdges outgoingEdgesSpec
  rcases hh : s.holding with _ | x
  · simp [hh, ite_not]
  · by_cases hl : (g.worldObjects x).size = "large"
    · simp [hh, hl, h1]
    · simp [hh, hl, h2, show (1 : ℚ) + 2 = 3 by norm_num]

/-- Witness for the amended C4 at the concrete state `cexS1`. -/
theorem outgoingEdges_spec_eq_witness :
    cexS1.arm < cexS1.stackList.length ∧
    cexGraph.outgoingEdges cexS1 = outgoingEdgesSpec cexGraph cexS1 :=
  ⟨by decide, outgoingEdges_spec_eq cexGraph cexS1 (by decide)⟩

/-- C4 counterexample (against the claim as stated, with `N` the total
number of objects): in the world `cexWorld` (one stacked object, one held
object, so `N = 2` by the claim's words) the state `cexS1` has a height-2
column; the code prices its pick edge at `-9`, while the claim's formula
`1 + 10·(N − h)/N` gives `1`. -/
theorem outgoingEdges_cost_cex :
    (cexGraph.outgoingEdges cexS1).map (·.cost) = [1, -9] ∧
    specTotalObjects cexWorld = 2 ∧
    1 + 10 * (((specTotalObjects cexWorld : ℚ)) - 2) / (specTotalObjects cexWorld : ℚ) = 1 ∧
    (-9 : ℚ) ≠ 1 := by
  refine ⟨by with_unfolding_all rfl, by with_unfolding_all rfl, ?_, ?_⟩
  · show (1 : ℚ) + 10 * (((2 : ℕ) : ℚ) - 2) / ((2 : ℕ) : ℚ) = 1
    norm_num
  · norm_num

/-! ## Conservation of objects (C10 and groundwork for C3) -/

open List

/-- A nonempty default column lookup means the index is in range. -/
lemma getD_ne_nil_lt (L : List (List String)) (i : Nat) (h : L.getD i [] ≠ []) :
    i < L.length := by
  by_contra hge
  rw [not_lt] at hge
  rw [List.getD_eq_getElem?_getD, List.getElem?_eq_none (by omega)] at h
  simp at h

/-- Setting one column does not change the others. -/
lemma getD_set_ne (L : List (List String)) (i j : Nat) (c : List String) (h : i ≠ j) :
    (L.set i c).getD j [] = L.getD j [] := by
  rw [List.getD_eq_getElem?_getD, List.getD_eq_getElem?_getD, List.getElem?_set_ne h]

/-- Exchanging column `i` for `c` exchanges its contents in the
flattening, up to permutation. -/
lemma flatten_set_perm (L : List (List String)) (i : Nat) (c : List String)
    (h : i < L.length) :
    (L.set i c).flatten ++ L.getD i [] ~ L.flatten ++ c := by
  induction L generalizing i with
  | nil => simp at h
  | cons hd tl ih =>
    cases i with
    | zero =>
      simp only [List.set_cons_zero, List.flatten_cons, List.getD_cons_zero]
      calc c ++ tl.flatten ++ hd ~ hd ++ (c ++ tl.flatten) := List.perm_append_comm
        _ = hd ++ c ++ tl.flatten := by rw [List.append_assoc]
        _ ~ hd ++ tl.flatten ++ c := by
            rw [List.append_assoc, List.append_assoc]
            exact (List.perm_append_left_iff hd).mpr List.perm_append_comm
    | succ i =>
      simp only [List.set_cons_succ, List.flatten_cons, List.getD_cons_succ]
      rw [List.append_assoc, List.append_assoc]
      exact (List.perm_append_left_iff hd).mpr (ih i (by simpa using h))

/-- Object conservation for a single edge: on in-range states the
identifier lists of the successor and the source are permutations; an
out-of-range arm (possible only for a drop on the empty default column)
loses the held object but nothing else. -/
lemma edge_ids (g : SearchStateGraph) (s : SearchState) (e : Edge SearchState)
    (he : e ∈ g.outgoingEdges s) :
    stateIds e.dst ~ stateIds s ∨
    (¬ s.arm < s.stackList.length ∧ stateIds e.dst <+ stateIds s) := by
  rcases outgoingEdges_cases g s e he with
    ⟨_, hdst, _⟩ | ⟨_, hdst, _⟩ | ⟨hh, hcol, hdst, _⟩ | ⟨x, hh, hdst, _⟩
  · left; rw [hdst]; rfl
  · left; rw [hdst]; rfl
  · left
    have harm := getD_ne_nil_lt _ _ hcol
    set col := s.stackList.getD s.arm [] with hcoldef
    rw [hdst]
    unfold stateIds
    simp only
    rw [List.getLast?_eq_getLast col hcol]
    simp only [hh]
    have hperm := flatten_set_perm s.stackList s.arm col.dropLast harm
    rw [← hcoldef] at hperm
    have hsplit : col.dropLast ++ [col.getLast hcol] = col :=
      List.dropLast_concat_getLast hcol
    calc (s.stackList.set s.arm col.dropLast).flatten ++ [col.getLast hcol]
        ~ s.stackList.flatten := by
          rw [← List.perm_append_right_iff col.dropLast]
          calc (s.stackList.set s.arm col.dropLast).flatten ++ [col.getLast hcol] ++ col.dropLast
              ~ (s.stackList.set s.arm col.dropLast).flatten ++ (col.dropLast ++ [col.getLast hcol]) := by
                rw [List.append_assoc]
                exact (List.perm_append_left_iff _).mpr List.perm_append_comm
            _ = (s.stackList.set s.arm col.dropLast).flatten ++ col := by rw [hsplit]
            _ ~ s.stackList.flatten ++ col.dropLast := hperm
      _ ~ s.stackList.flatten ++ [] := by simp
  · by_cases harm : s.arm < s.stackList.length
    · left
      set col := s.stackList.getD s.arm [] with hcoldef
      rw [hdst]
      unfold stateIds
      simp only [hh]
      have hperm := flatten_set_perm s.stackList s.arm (col ++ [x]) harm
      rw [← hcoldef] at hperm
      rw [← List.perm_append_right_iff col]
      calc (s.stackList.set s.arm (col ++ [x])).flatten ++ [] ++ col
          = (s.stackList.set s.arm (col ++ [x])).flatten ++ col := by simp
        _ ~ s.stackList.flatten ++ (col ++ [x]) := hperm
        _ = s.stackList.flatten ++ col ++ [x] := by rw [List.append_assoc]
        _ ~ s.stackList.flatten ++ [x] ++ col := by
            rw [List.append_assoc, List.append_assoc]
            exact (List.perm_append_left_iff _).mpr List.perm_append_comm
    · right
      refine ⟨harm, ?_⟩
      rw [hdst]
      unfold stateIds
      simp only [hh]
      rw [List.set_eq_of_length_le (by omega)]
      simp

/-! ## Claim C10: conservation, frame, and arm moves -/

/-- C10 (confirmed): on §3.1-well-formed states every successor conserves
the multiset of identifiers (stacks plus held object), leaves every column
other than the one under the arm unchanged, and an arm move changes
neither the stacks nor the held object. -/
theorem outgoingEdges_conserves (g : SearchStateGraph) (s : SearchState)
    (e : Edge SearchState) (harm : s.arm < s.stackList.length)
    (he : e ∈ g.outgoingEdges s) :
    ((stateIds e.dst : Multiset String) = (stateIds s : Multiset String)) ∧
    (∀ j, j ≠ s.arm → e.dst.stackList.getD j [] = s.stackList.getD j []) ∧
    (e.dst.arm ≠ s.arm → e.dst.stackList = s.stackList ∧ e.dst.holding = s.holding) := by
  refine ⟨?_, ?_, ?_⟩
  · rcases edge_ids g s e he with hp | ⟨hnarm, _⟩
    · exact Multiset.coe_eq_coe.mpr hp
    · exact absurd harm hnarm
  · intro j hj
    rcases outgoingEdges_cases g s e he with
      ⟨_, hdst, _⟩ | ⟨_, hdst, _⟩ | ⟨_, _, hdst, _⟩ | ⟨x, _, hdst, _⟩
    · rw [hdst]
    · rw [hdst]
    · rw [hdst]
      exact getD_set_ne _ _ _ _ (fun h' => hj h'.symm)
    · rw [hdst]
      exact getD_set_ne _ _ _ _ (fun h' => hj h'.symm)
  · intro hdarm
    rcases outgoingEdges_cases g s e he with
      ⟨_, hdst, _⟩ | ⟨_, hdst, _⟩ | ⟨_, _, hdst, _⟩ | ⟨x, _, hdst, _⟩
    · rw [hdst]
      exact ⟨rfl, rfl⟩
    · rw [hdst]
      exact ⟨rfl, rfl⟩
    · rw [hdst] at hdarm
      simp at hdarm
    · rw [hdst] at hdarm
      simp at hdarm

/-- Witness for C10 at the pick edge of `cexS1`. -/
theorem outgoingEdges_conserves_witness :
    cexS1.arm < cexS1.stackList.length ∧
    ((⟨cexS1, cexS0, -9⟩ : Edge SearchState) ∈ cexGraph.outgoingEdges cexS1) ∧
    ((stateIds cexS0 : Multiset String) = (stateIds cexS1 : Multiset String)) :=
  ⟨by decide, of_decide_eq_true (by with_unfolding_all rfl),
    (outgoingEdges_conserves cexGraph cexS1 ⟨cexS1, cexS0, -9⟩ (by decide)
      (of_decide_eq_true (by with_unfolding_all rfl))).1⟩

/-! ## A* soundness (C2 and groundwork for C1) -/

/-- The dequeued element is in the frontier, and the remaining frontier is
contained in it. -/
lemma extractMin_mem (h : Node → HVal) (fr : List (FrontierNode Node))
    (it : FrontierNode Node) (rest : List (FrontierNode Node))
    (he : extractMin h fr = some (it, rest)) :
    it ∈ fr ∧ ∀ y ∈ rest, y ∈ fr := by
  induction fr generalizing it rest with
  | nil => simp [extractMin] at he
  | cons x xs ih =>
    rw [extractMin] at he
    split at he
    · injection he with he'
      injection he' with h1 h2
      subst h1; subst h2
      exact ⟨List.mem_cons_self x xs, fun y hy => List.mem_cons_of_mem x hy⟩
    · rename_i m r heq
      obtain ⟨hmem, hsub⟩ := ih m r heq
      split at he
      · injection he with he'
        injection he' with h1 h2
        subst h1; subst h2
        exact ⟨List.mem_cons_self x xs, fun y hy => List.mem_cons_of_mem x hy⟩
      · injection he with he'
        injection he' with h1 h2
        subst h1; subst h2
        refine ⟨List.mem_cons_of_mem x hmem, fun y hy => ?_⟩
        rcases List.mem_cons.mp hy with rfl | hy
        · exact List.mem_cons_self y xs
        · exact List.mem_cons_of_mem x (hsub y hy)

/-- Every result of the A* loop is the backtrace of a well-formed frontier
item whose node satisfies the goal. -/
lemma aStarLoop_sound [DecidableEq Node] (g : Graph Node) (goalF : Node → Bool)
    (h : Node → HVal) (start : Node) :
    ∀ (fuel : Nat) (visited : List Node) (frontier : List (FrontierNode Node))
      (res : SearchResult Node),
    (∀ it ∈ frontier, ValidF g start it) →
    aStarLoop g goalF h fuel visited frontier = some res →
    ∃ it, ValidF g start it ∧ goalF it.node = true ∧ res = toResult it := by
  intro fuel
  induction fuel with
  | zero => intro _ _ _ _ hres; simp [aStarLoop] at hres
  | succ fuel ih =>
    intro visited frontier res hval hres
    rw [aStarLoop] at hres
    split at hres
    · simp at hres
    · rename_i item rest hmin
      obtain ⟨hitem, hrest⟩ := extractMin_mem h frontier item rest hmin
      split at hres
      · exact ih _ _ _ (fun it hit => hval it (hrest it hit)) hres
      · split at hres
        · rename_i hgoal
          injection hres with h'
          exact ⟨item, hval _ hitem, hgoal, h'.symm⟩
        · refine ih _ _ _ ?_ hres
          intro it hit
          rcases List.mem_append.mp hit with hit | hit
          · exact hval it (hrest it hit)
          · rcases List.mem_filterMap.mp hit with ⟨e, he, heq⟩
            split at heq
            · exact absurd heq (by simp)
            · injection heq with h'
              subst h'
              exact ValidF.step (hval item hitem) he

/-- Extending a linked path by one outgoing edge of its last node. -/
lemma linked_snoc [DecidableEq Node] (g : Graph Node) :
    ∀ (l : List Node) (es : List (Edge Node)) (u : Node) (e : Edge Node),
    linked g l es = true → l.getLast? = some u → e ∈ g.outgoingEdges u →
    linked g (l ++ [e.dst]) (es ++ [e]) = true := by
  intro l
  induction l with
  | nil => intro es u e hl; simp [linked] at hl
  | cons a l ih =>
    intro es u e hl hlast he
    cases l with
    | nil =>
      cases es with
      | nil =>
        simp at hlast
        subst hlast
        simp [linked, he]
      | cons e' es' => simp [linked] at hl
    | cons b l' =>
      cases es with
      | nil => simp [linked] at hl
      | cons e' es' =>
        simp only [linked, Bool.and_eq_true, decide_eq_true_eq] at hl
        obtain ⟨⟨hmem, hdst⟩, hrest⟩ := hl
        have hlast' : (b :: l').getLast? = some u := by
          rw [← hlast]
          simp [List.getLast?]
        have := ih es' u e hrest hlast' he
        simp only [List.cons_append, linked, Bool.and_eq_true, decide_eq_true_eq]
        exact ⟨⟨hmem, hdst⟩, by simpa using this⟩

/-- The backtrace list of a frontier item is nonempty. -/
lemma pathRevList_ne_nil (it : FrontierNode Node) : pathRevList it ≠ [] := by
  cases it with
  | mk n p c => cases p <;> simp [pathRevList]

/-- The backtrace of a well-formed frontier item is a linked path from the
start to the item's node whose edge costs sum to the item's cost. -/
lemma validF_path [DecidableEq Node] (g : Graph Node) (start : Node)
    (it : FrontierNode Node) (hv : ValidF g start it) :
    ∃ es, (toResult it).path.head? = some start ∧
      (toResult it).path.getLast? = some it.node ∧
      linked g (toResult it).path es = true ∧
      (es.map (·.cost)).sum = it.cost := by
  induction hv with
  | root =>
    exact ⟨[], by simp [toResult, pathRevList], by simp [toResult, pathRevList, FrontierNode.node],
      by simp [linked, toResult, pathRevList], by simp [FrontierNode.cost]⟩
  | @step p e hp he ih =>
    obtain ⟨es, hhead, hlast, hlink, hsum⟩ := ih
    have hpath : (toResult (⟨e.dst, some p, p.cost + e.cost⟩ : FrontierNode Node)).path
        = (toResult p).path ++ [e.dst] := by
      simp [toResult, pathRevList]
    refine ⟨es ++ [e], ?_, ?_, ?_, ?_⟩
    · rw [hpath, List.head?_append_of_ne_nil]
      · exact hhead
      · simpa [toResult] using pathRevList_ne_nil p
    · rw [hpath]
      simp [FrontierNode.node]
    · rw [hpath]
      exact linked_snoc g _ es p.node e hlink hlast he
    · show ((es ++ [e]).map (·.cost)).sum = p.cost + e.cost
      rw [List.map_append, List.sum_append, hsum]
      simp

/-- C2 (confirmed): whenever `aStarSearch` returns a result, its path
starts at the start node, consecutive path nodes are connected by edges
produced by `outgoingEdges` on the earlier node, the final node satisfies
the goal, and the reported cost is the sum of those edges' costs. -/
theorem aStarSearch_sound [DecidableEq Node] (g : Graph Node) (start : Node)
    (goalF : Node → Bool) (h : Node → HVal) (fuel : Nat) (res : SearchResult Node)
    (hres : aStarSearch g start goalF h fuel = some res) :
    res.path.head? = some start ∧
    (∃ finalNode, res.path.getLast? = some finalNode ∧ goalF finalNode = true) ∧
    ∃ es, linked g res.path es = true ∧ res.cost = (es.map (·.cost)).sum := by
  obtain ⟨it, hv, hgoal, rfl⟩ := aStarLoop_sound g goalF h start fuel [] [⟨start, none, 0⟩]
    res (by
      intro x hx
      rcases List.mem_cons.mp hx with rfl | hx
      · exact ValidF.root
      · simp at hx) hres
  obtain ⟨es, hhead, hlast, hlink, hsum⟩ := validF_path g start it hv
  exact ⟨hhead, ⟨it.node, hlast, hgoal⟩, es, hlink, by simp [toResult, hsum]⟩

/-- Witness for C2 on the two-edge line graph over `ℕ`. -/
theorem aStarSearch_sound_witness :
    aStarSearch natLineGraph 0 (fun n => n == 2) (fun _ => qv 0) 10 =
      some ⟨[0, 1, 2], 2⟩ ∧
    (([0, 1, 2] : List Nat).head? = some 0 ∧
      (∃ finalNode, ([0, 1, 2] : List Nat).getLast? = some finalNode ∧
        (finalNode == 2) = true) ∧
      ∃ es, linked natLineGraph [0, 1, 2] es = true ∧
        (2 : ℚ) = (es.map (·.cost)).sum) :=
  ⟨by with_unfolding_all rfl,
    aStarSearch_sound natLineGraph 0 (fun n => n == 2) (fun _ => qv 0) 10 ⟨[0, 1, 2], 2⟩
      (by with_unfolding_all rfl)⟩

/-! ## Claim C1: rendered plans replay the path (groundwork) -/

/-- Strings whose length is not 1 are utterances, not action tokens. -/
lemma not_token_of_length_ne_one (s : String) (h : s.length ≠ 1) :
    isActionToken s = false := by
  unfold isActionToken
  simp only [decide_eq_false_iff_not]
  rintro (rfl | rfl | rfl | rfl) <;> exact h (by rfl)

/-- Skipping an utterance during plan execution. -/
lemma execPlan_cons_skip (g : SearchStateGraph) (s : SearchState) (tok : String)
    (rest : List String) (h : isActionToken tok = false) :
    execPlan g s (tok :: rest) = execPlan g s rest := by
  simp [execPlan, h]

/-- Executing one action token during plan execution. -/
lemma execPlan_cons_tok (g : SearchStateGraph) (s s' : SearchState) (tok : String)
    (rest : List String) (h : isActionToken tok = true) (hexec : execAction g s tok = some s') :
    execPlan g s (tok :: rest) = execPlan g s' rest := by
  simp [execPlan, h, hexec]

/-- The picked-up utterance is not a token. -/
lemma pick_utter_not_token (c : Prop) [Decidable c] (o : ObjectDefinition) :
    isActionToken ((if c then "Taking" else "Moving") ++ " the " ++ o.size ++ " " ++
      o.color ++ " " ++ o.form) = false := by
  apply not_token_of_length_ne_one
  have h6 : (if c then "Taking" else "Moving").length = 6 := by
    split <;> rfl
  simp [String.length_append, h6, show (" the " : String).length = 5 from rfl,
    show (" " : String).length = 1 from rfl]
  omega

/-- The dropping utterance is not a token. -/
lemma drop_utter_not_token (o : ObjectDefinition) :
    isActionToken ("Dropping " ++ "the " ++ o.size ++ " " ++ o.color ++ " " ++ o.form)
      = false := by
  apply not_token_of_length_ne_one
  simp [String.length_append, show ("Dropping " : String).length = 9 from rfl,
    show ("the " : String).length = 4 from rfl, show (" " : String).length = 1 from rfl]
  omega

/-- The rendered plan of a linked path, executed under the token
semantics, replays the path to its final state (for any value of the
pending-pick flag). -/
lemma convertAux_exec (g : SearchStateGraph) (objects : String → ObjectDefinition) :
    ∀ (rest : List SearchState) (s : SearchState) (es : List (Edge SearchState)) (flag : Bool),
    linked g.toGraph (s :: rest) es = true →
    execPlan g s (convertAux objects (s :: rest) flag) = (s :: rest).getLast? := by
  intro rest
  induction rest with
  | nil =>
    intro s es flag _
    simp [convertAux, execPlan]
  | cons v rest' ih =>
    intro s es flag hlink
    cases es with
    | nil => simp [linked] at hlink
    | cons e es' =>
      simp only [linked, Bool.and_eq_true, decide_eq_true_eq] at hlink
      obtain ⟨⟨hmem, hdst⟩, hlink'⟩ := hlink
      have hlast : (s :: v :: rest').getLast? = (v :: rest').getLast? := by
        simp [List.getLast?]
      rcases outgoingEdges_cases g s e hmem with
        ⟨harm, hd, _⟩ | ⟨harm, hd, _⟩ | ⟨hh, hcol, hd, _⟩ | ⟨x, hh, hd, hcases⟩
      · -- arm left
        have hv : v = ⟨s.stackList, s.holding, s.arm - 1⟩ := by rw [← hdst, hd]
        have harm' : v.arm < s.arm := by rw [hv]; simpa using Nat.sub_lt harm Nat.one_pos
        have hstep : convertAux objects (s :: v :: rest') flag =
            "l" :: convertAux objects (v :: rest') flag := by
          rw [convertAux, if_pos harm']
        rw [hstep, execPlan_cons_tok g s v "l" _ (by decide) ?_, ih v es' flag hlink', hlast]
        rw [hv]
        simp [execAction, harm]
      · -- arm right
        have hv : v = ⟨s.stackList, s.holding, s.arm + 1⟩ := by rw [← hdst, hd]
        have h1 : ¬ v.arm < s.arm := by rw [hv]; simp
        have h2 : s.arm < v.arm := by rw [hv]; simp
        have hstep : convertAux objects (s :: v :: rest') flag =
            "r" :: convertAux objects (v :: rest') flag := by
          rw [convertAux, if_neg h1, if_pos h2]
        rw [hstep, execPlan_cons_tok g s v "r" _ (by decide) ?_, ih v es' flag hlink', hlast]
        rw [hv]
        simp [execAction, harm]
      · -- pick
        obtain ⟨hId, hg⟩ : ∃ hId, (s.stackList.getD s.arm []).getLast? = some hId := by
          rcases hx : (s.stackList.getD s.arm []).getLast? with _ | hId
          · rw [List.getLast?_eq_getLast _ hcol] at hx
            cases hx
          · exact ⟨hId, rfl⟩
        have hv : v = ⟨s.stackList.set s.arm (s.stackList.getD s.arm []).dropLast,
            some hId, s.arm⟩ := by
          rw [← hdst, hd, hg]
        have h1 : ¬ v.arm < s.arm := by rw [hv]; simp
        have h2 : ¬ s.arm < v.arm := by rw [hv]; simp
        have hstep : convertAux objects (s :: v :: rest') flag =
            ((if rest' = [] then "Taking" else "Moving") ++ " the " ++ (objects hId).size ++
              " " ++ (objects hId).color ++ " " ++ (objects hId).form)
              :: "p" :: convertAux objects (v :: rest') true := by
          rw [convertAux, if_neg h1, if_neg h2, hh, hv]
        rw [hstep, execPlan_cons_skip _ _ _ _ (pick_utter_not_token _ _),
          execPlan_cons_tok g s v "p" _ (by decide) ?_, ih v es' true hlink', hlast]
        rw [hv]
        simp only [execAction]
        simp [hh]
        rw [List.getD_eq_getElem?_getD] at hcol hg
        exact ⟨hcol, hg⟩
      · -- drop
        have hv : v = ⟨s.stackList.set s.arm (s.stackList.getD s.arm [] ++ [x]),
            none, s.arm⟩ := by
          rw [← hdst, hd]
        have h1 : ¬ v.arm < s.arm := by rw [hv]; simp
        have h2 : ¬ s.arm < v.arm := by rw [hv]; simp
        have hexec : execAction g s "d" = some v := by
          rcases hcases with ⟨hcol, _⟩ | ⟨hcol, hvalid, _⟩
          · rw [hv]
            simp [execAction, hh, hcol]
            intro h'
            rw [List.getD_eq_getElem?_getD] at hcol
            exact absurd hcol h'
          · rw [hv]
            simp [execAction, hh, hcol]
            intro _
            rw [List.getD_eq_getElem?_getD] at hvalid
            exact hvalid
        cases hflag : flag with
        | true =>
          have hstep : convertAux objects (s :: v :: rest') true =
              "d" :: convertAux objects (v :: rest') false := by
            rw [convertAux, if_neg h1, if_neg h2, hh, hv]
            rfl
          rw [hstep, execPlan_cons_tok g s v "d" _ (by decide) hexec,
            ih v es' false hlink', hlast]
        | false =>
          have hstep : convertAux objects (s :: v :: rest') false =
              ("Dropping " ++ "the " ++ (objects x).size ++ " " ++ (objects x).color ++
                " " ++ (objects x).form) :: "d" :: convertAux objects (v :: rest') false := by
            rw [convertAux, if_neg h1, if_neg h2, hh, hv]
            rfl
          rw [hstep, execPlan_cons_skip _ _ _ _ (drop_utter_not_token _),
            execPlan_cons_tok g s v "d" _ (by decide) hexec,
            ih v es' false hlink', hlast]

/-- C1 (confirmed): whenever `planInterpretation` returns a plan, executing
the plan's primitive tokens in order under the state-graph successor
semantics, starting from the search state derived from the world and
ignoring utterance strings, succeeds and ends in a state satisfying the
DNF goal test. -/
theorem planInterpretation_sound (fuel : Nat) (interpretation : DNFFormula)
    (state : WorldState) (plan : List String)
    (hp : planInterpretation fuel interpretation state = some plan) :
    ∃ endState,
      execPlan (mkSearchStateGraph state) (worldToSearchState state) plan = some endState ∧
      goal interpretation endState = true := by
  unfold planInterpretation at hp
  split at hp
  · rename_i res heq
    injection hp with hp'
    subst hp'
    unfold aStarSearch at heq
    obtain ⟨it, hv, hgoal, rfl⟩ :=
      aStarLoop_sound (mkSearchStateGraph state).toGraph (goal interpretation)
        (heuristics interpretation) (worldToSearchState state) fuel []
        [⟨worldToSearchState state, none, 0⟩] res
        (by
          intro x hx
          rcases List.mem_cons.mp hx with rfl | hx
          · exact ValidF.root
          · simp at hx) heq
    obtain ⟨es, hhead, hlast, hlink, _⟩ :=
      validF_path (mkSearchStateGraph state).toGraph (worldToSearchState state) it hv
    rcases hpath : (toResult it).path with _ | ⟨a, rest⟩
    · rw [hpath] at hhead
      simp at hhead
    · rw [hpath] at hhead hlast hlink
      have ha : a = worldToSearchState state := by
        simpa using hhead
    -- the rendered plan replays the linked path to its last node
      refine ⟨it.node, ?_, hgoal⟩
      have hexec := convertAux_exec (mkSearchStateGraph state) state.objects rest a es false
        hlink
      rw [hlast] at hexec
      unfold convertPathToPlan
      rw [hpath, ← ha]
      exact hexec
  · exact absurd hp (by simp)

/-- Witness for C1: the one-ball world and the goal `holding(a)`; the
planner returns `["Taking the small white ball", "p"]`, whose execution
holds `a`. -/
theorem planInterpretation_sound_witness :
    planInterpretation 10 witPhi witWorld = some ["Taking the small white ball", "p"] ∧
    ∃ endState,
      execPlan (mkSearchStateGraph witWorld) (worldToSearchState witWorld)
        ["Taking the small white ball", "p"] = some endState ∧
      goal witPhi endState = true :=
  ⟨by with_unfolding_all rfl,
    planInterpretation_sound 10 witPhi witWorld ["Taking the small white ball", "p"]
      (by with_unfolding_all rfl)⟩

/-! ## C9: the plan renderer -/

/-- No transition before index 0: the pending-pick status is the initial
one. -/
lemma pickActiveFrom_zero (init : Bool) (path : List SearchState) :
    pickActiveFrom init path 0 = init := rfl

/-- Unfolding the pending-pick status one transition at a time. -/
lemma pickActiveFrom_succ (init : Bool) (path : List SearchState) (i : Nat) :
    pickActiveFrom init path (i + 1) =
      if isPickAt path i || isDropAt path i then isPickAt path i
      else pickActiveFrom init path i := by
  unfold pickActiveFrom
  rw [List.range_succ, List.reverse_append]
  by_cases h : (isPickAt path i || isDropAt path i) = true
  · simp [h]
  · simp [h]

/-- Pick detection shifts along the path. -/
lemma isPickAt_cons (x : SearchState) (t : List SearchState) (j : Nat) :
    isPickAt (x :: t) (j + 1) = isPickAt t j := by
  simp [isPickAt, List.getD_cons_succ]

/-- Drop detection shifts along the path. -/
lemma isDropAt_cons (x : SearchState) (t : List SearchState) (j : Nat) :
    isDropAt (x :: t) (j + 1) = isDropAt t j := by
  simp [isDropAt, List.getD_cons_succ]

/-- The pending-pick status shifts along the path, updating the initial
status by the first transition. -/
lemma pickActiveFrom_cons (init : Bool) (x y : SearchState) (t : List SearchState) :
    ∀ i, pickActiveFrom init (x :: y :: t) (i + 1) =
      pickActiveFrom
        (if isPickAt (x :: y :: t) 0 then true
         else if isDropAt (x :: y :: t) 0 then false else init) (y :: t) i := by
  intro i
  induction i with
  | zero =>
    rw [pickActiveFrom_succ, pickActiveFrom_zero, pickActiveFrom_zero]
    by_cases hp : isPickAt (x :: y :: t) 0
    · simp [hp]
    · by_cases hd : isDropAt (x :: y :: t) 0
      · simp [hp, hd]
      · simp [hp, hd]
  | succ i ih =>
    rw [pickActiveFrom_succ]
    conv_rhs => rw [pickActiveFrom_succ]
    rw [isPickAt_cons, isDropAt_cons, ih]

/-- Concatenating `Dropping ` with `the ` gives the literal of the
single-utterance renderer branch. -/
lemma dropping_the_eq (s : String) :
    ("Dropping " : String) ++ ("the " ++ s) = "Dropping the " ++ s := by
  have h : ("Dropping " : String) ++ "the " = "Dropping the " := by decide
  rw [← String.append_assoc, h]

/-- A rendered in-range transition shifts along the path, updating the
pending-pick status by the first transition. -/
lemma stepRender_cons (objects : String → ObjectDefinition) (x y : SearchState)
    (t : List SearchState) (init : Bool) (i : Nat) (hi : i < t.length) :
    stepRender objects (x :: y :: t) init (i + 1) =
      stepRender objects (y :: t)
        (if isPickAt (x :: y :: t) 0 then true
         else if isDropAt (x :: y :: t) 0 then false else init) i := by
  have hcond : (i + 1 = (x :: y :: t).length - 2) ↔ (i = (y :: t).length - 2) := by
    simp only [List.length_cons]
    omega
  simp only [stepRender, List.getD_cons_succ, pickActiveFrom_cons, hcond]

/-- Pointwise-equal functions have equal flatMaps. -/
lemma flatMap_congr_mem {α β : Type} (l : List α) (f g : α → List β)
    (h : ∀ a ∈ l, f a = g a) : l.flatMap f = l.flatMap g := by
  induction l with
  | nil => rfl
  | cons a t ih =>
    simp only [List.flatMap_cons]
    rw [h a (List.mem_cons_self a t), ih (fun b hb => h b (List.mem_cons_of_mem a hb))]

/-- The renderer loop equals the declarative per-transition rendering. -/
lemma convertAux_render (objects : String → ObjectDefinition) :
    ∀ (path : List SearchState) (init : Bool),
      convertAux objects path init =
        (List.range (path.length - 1)).flatMap (stepRender objects path init) := by
  intro path
  induction path with
  | nil => intro init; rfl
  | cons x t ih =>
    intro init
    cases t with
    | nil => rfl
    | cons y t' =>
      have hlen : (x :: y :: t').length - 1 = ((y :: t').length - 1) + 1 := by
        simp [List.length_cons]
      have hrhs :
          (List.range ((x :: y :: t').length - 1)).flatMap
              (stepRender objects (x :: y :: t') init) =
            stepRender objects (x :: y :: t') init 0 ++
              (List.range ((y :: t').length - 1)).flatMap
                (stepRender objects (y :: t')
                  (if isPickAt (x :: y :: t') 0 then true
                   else if isDropAt (x :: y :: t') 0 then false else init)) := by
        rw [hlen, List.range_succ_eq_map, List.flatMap_cons, List.flatMap_map]
        congr 1
        refine flatMap_congr_mem _ _ _ (fun i hmem => ?_)
        have hi : i < t'.length := by
          have := List.mem_range.mp hmem
          simpa using this
        exact stepRender_cons objects x y t' init i hi
      rw [hrhs, ← ih]
      by_cases h1 : y.arm < x.arm
      · have hp0 : isPickAt (x :: y :: t') 0 = false := by
          simp [isPickAt, h1]
        have hd0 : isDropAt (x :: y :: t') 0 = false := by
          simp [isDropAt, h1]
        simp only [convertAux, stepRender, List.getD_cons_zero, List.getD_cons_succ,
          hp0, hd0, if_pos h1, Bool.false_eq_true, if_false]
        rfl
      · by_cases h2 : x.arm < y.arm
        · have hp0 : isPickAt (x :: y :: t') 0 = false := by
            simp [isPickAt, h1, h2]
          have hd0 : isDropAt (x :: y :: t') 0 = false := by
            simp [isDropAt, h1, h2]
          simp only [convertAux, stepRender, List.getD_cons_zero, List.getD_cons_succ,
            hp0, hd0, if_neg h1, if_pos h2, Bool.false_eq_true, if_false]
          rfl
        · cases hcx : x.holding with
          | none =>
            cases hcy : y.holding with
            | none =>
              have hp0 : isPickAt (x :: y :: t') 0 = false := by
                simp [isPickAt, hcy]
              have hd0 : isDropAt (x :: y :: t') 0 = false := by
                simp [isDropAt, hcx]
              simp only [convertAux, stepRender, List.getD_cons_zero, List.getD_cons_succ,
                hp0, hd0, if_neg h1, if_neg h2, hcx, hcy, Bool.false_eq_true, if_false]
              rfl
            | some hId =>
              have hp0 : isPickAt (x :: y :: t') 0 = true := by
                simp [isPickAt, h1, h2, hcx, hcy]
              have htk : (0 = (x :: y :: t').length - 2) ↔ (t' = []) := by
                simp only [List.length_cons]
                constructor
                · intro h
                  have : t'.length = 0 := by omega
                  exact List.length_eq_zero.mp this
                · intro h
                  subst h
                  rfl
              simp only [convertAux, stepRender, List.getD_cons_zero, List.getD_cons_succ,
                hp0, if_neg h1, if_neg h2, hcx, hcy, if_true, htk]
              simp only [fullDesc, String.append_assoc, List.cons_append, List.nil_append]
          | some hId =>
            cases hcy : y.holding with
            | none =>
              have hd0 : isDropAt (x :: y :: t') 0 = true := by
                simp [isDropAt, h1, h2, hcx, hcy]
              have hp0 : isPickAt (x :: y :: t') 0 = false := by
                simp [isPickAt, hcx]
              cases init with
              | true =>
                simp only [convertAux, stepRender, List.getD_cons_zero, List.getD_cons_succ,
                  hp0, hd0, if_neg h1, if_neg h2, hcx, hcy, pickActiveFrom_zero,
                  Bool.false_eq_true, if_false, if_true]
                rfl
              | false =>
                simp only [convertAux, stepRender, List.getD_cons_zero, List.getD_cons_succ,
                  hp0, hd0, if_neg h1, if_neg h2, hcx, hcy, pickActiveFrom_zero,
                  Bool.false_eq_true, if_false, if_true]
                simp only [fullDesc, String.append_assoc, dropping_the_eq,
                  List.cons_append, List.nil_append]
            | some hId2 =>
              have hp0 : isPickAt (x :: y :: t') 0 = false := by
                simp [isPickAt, hcx]
              have hd0 : isDropAt (x :: y :: t') 0 = false := by
                simp [isDropAt, hcy]
              simp only [convertAux, stepRender, List.getD_cons_zero, List.getD_cons_succ,
                hp0, hd0, if_neg h1, if_neg h2, hcx, hcy, Bool.false_eq_true, if_false]
              rfl

/-- C9 (amended): `convertPathToPlan` renders exactly the declarative
per-transition specification `renderSpec`: `l`/`r` on arm moves; before
each `p` the utterance `Taking`/`Moving` `the` followed by the full
size-color-form description of the picked object, with `Taking` exactly
when the pick is the final transition of the path; before each `d` with no
pending pick message the utterance `Dropping the` followed by the full
description of the dropped object. -/
theorem convertPathToPlan_renderSpec_eq (objects : String → ObjectDefinition)
    (sr : SearchResult SearchState) :
    convertPathToPlan objects sr = renderSpec objects sr.path := by
  unfold convertPathToPlan renderSpec
  exact convertAux_render objects sr.path false

/-- C9 counterexample: on the pick-then-drop path `rPath` the code says
`Moving the small white ball` (full description, and `Moving` because the
pick is not the final transition), while the claim as stated demands
`Taking the ball` (last pick of the path, shortest unambiguous
description). -/
theorem convertPathToPlan_desc_cex :
    convertPathToPlan rObjects ⟨rPath, 0⟩ = ["Moving the small white ball", "p", "d"] ∧
    claimedRender rObjects rPath = ["Taking the ball", "p", "d"] ∧
    convertPathToPlan rObjects ⟨rPath, 0⟩ ≠ claimedRender rObjects rPath := by
  refine ⟨by decide, by decide, by decide⟩

/-! ## C3: `findStack` and column-membership lemmas -/

/-- `findStack` never returns anything below the `-1` sentinel. -/
lemma neg_one_le_findStack (id : String) (L : List (List String)) :
    -1 ≤ findStack id L := by
  induction L with
  | nil => simp [findStack]
  | cons col rest ih =>
    simp only [findStack]
    split_ifs <;> omega

/-- `findStack` misses exactly the identifiers outside the stacks. -/
lemma findStack_eq_neg_one (id : String) (L : List (List String)) :
    findStack id L = -1 ↔ id ∉ L.flatten := by
  induction L with
  | nil => simp [findStack]
  | cons col rest ih =>
    have hb := neg_one_le_findStack id rest
    simp only [findStack, List.flatten_cons, List.mem_append]
    split_ifs with hr hc
    · constructor
      · intro h; exact absurd h (by decide)
      · intro h; exact absurd (Or.inl hc) h
    · simp [hc, ih.mp hr]
    · have hmem : id ∈ rest.flatten := by
        by_contra hn; exact hr (ih.mpr hn)
      constructor
      · intro h; exact absurd h (by omega)
      · intro h; exact absurd (Or.inr hmem) h

/-- `findStack` stays below the number of columns. -/
lemma findStack_lt_length (id : String) (L : List (List String)) :
    findStack id L < (L.length : Int) := by
  induction L with
  | nil => simp [findStack]
  | cons col rest ih =>
    simp only [findStack, List.length_cons]
    split_ifs <;> push_cast <;> omega

/-- Membership in a dropped suffix bounds `findStack` from below. -/
lemma mem_flatten_of_mem_drop {α : Type} {id : α} {l : List (List α)} {k : Nat}
    (h : id ∈ (l.drop k).flatten) : id ∈ l.flatten := by
  rw [show l = l.take k ++ l.drop k from (List.take_append_drop k l).symm,
    List.flatten_append, List.mem_append]
  exact Or.inr h

/-- Membership in a taken prefix is membership in the flattening. -/
lemma mem_flatten_of_mem_take {α : Type} {id : α} {l : List (List α)} {k : Nat}
    (h : id ∈ (l.take k).flatten) : id ∈ l.flatten := by
  rw [show l = l.take k ++ l.drop k from (List.take_append_drop k l).symm,
    List.flatten_append, List.mem_append]
  exact Or.inl h

/-- An identifier in the suffix after column `k` is found at column `k` or
later. -/
lemma le_findStack_of_mem_drop (id : String) (L : List (List String)) (k : Nat)
    (h : id ∈ (L.drop k).flatten) : (k : Int) ≤ findStack id L := by
  induction L generalizing k with
  | nil => simp at h
  | cons col rest ih =>
    cases k with
    | zero =>
      have hne : findStack id (col :: rest) ≠ -1 := fun hx =>
        ((findStack_eq_neg_one id (col :: rest)).mp hx) (by simpa using h)
      have hb := neg_one_le_findStack id (col :: rest)
      omega
    | succ k =>
      rw [List.drop_succ_cons] at h
      have hrec := ih k h
      simp only [findStack]
      split_ifs with hr hc <;> omega

/-- Identifiers of one column are in the flattening. -/
lemma mem_getD_flatten (id : String) (L : List (List String)) (j : Nat)
    (h : id ∈ L.getD j []) : id ∈ L.flatten := by
  induction L generalizing j with
  | nil => simp at h
  | cons col rest ih =>
    rw [List.flatten_cons, List.mem_append]
    cases j with
    | zero => exact Or.inl (by simpa using h)
    | succ j => exact Or.inr (ih j (by simpa using h))

/-- Identifiers of the flattening sit in some in-range column. -/
lemma flatten_mem_getD (id : String) (L : List (List String))
    (h : id ∈ L.flatten) : ∃ j, j < L.length ∧ id ∈ L.getD j [] := by
  induction L with
  | nil => simp at h
  | cons col rest ih =>
    rw [List.flatten_cons, List.mem_append] at h
    rcases h with h | h
    · exact ⟨0, by simp, by simpa using h⟩
    · obtain ⟨j, hj, hm⟩ := ih h
      exact ⟨j + 1, by simpa using hj, by simpa using hm⟩

/-- With distinct identifiers, `findStack` returns the column an
identifier sits in. -/
lemma findStack_eq_of_mem (id : String) (L : List (List String)) (j : Nat)
    (hnd : L.flatten.Nodup) (hj : j < L.length) (hm : id ∈ L.getD j []) :
    findStack id L = (j : Int) := by
  induction L generalizing j with
  | nil => simp at hj
  | cons col rest ih =>
    rw [List.flatten_cons, List.nodup_append] at hnd
    obtain ⟨hndc, hndr, hdisj⟩ := hnd
    cases j with
    | zero =>
      rw [List.getD_cons_zero] at hm
      have hnr : id ∉ rest.flatten := fun hx => hdisj hm hx
      have h1 : findStack id rest = -1 := (findStack_eq_neg_one id rest).mpr hnr
      simp only [findStack, h1, if_pos, hm]
      simp [hm]
    | succ j =>
      rw [List.getD_cons_succ] at hm
      have hrec := ih j hndr (by simpa using hj) hm
      simp only [findStack, hrec]
      have hne : (j : Int) ≠ -1 := by omega
      rw [if_neg hne]
      push_cast
      ring

/-- With distinct identifiers, an identifier in the prefix of the first
`k` columns is found before column `k`. -/
lemma findStack_lt_of_mem_take (id : String) (L : List (List String)) (k : Nat)
    (hnd : L.flatten.Nodup) (hm : id ∈ (L.take k).flatten) :
    findStack id L < (k : Int) := by
  induction L generalizing k with
  | nil => simp at hm
  | cons col rest ih =>
    cases k with
    | zero => simp at hm
    | succ k =>
      rw [List.take_succ_cons, List.flatten_cons, List.mem_append] at hm
      rw [List.flatten_cons, List.nodup_append] at hnd
      obtain ⟨hndc, hndr, hdisj⟩ := hnd
      rcases hm with hm | hm
      · have hnr : id ∉ rest.flatten := fun hx => hdisj hm hx
        have h1 : findStack id rest = -1 := (findStack_eq_neg_one id rest).mpr hnr
        simp only [findStack, h1, if_pos, hm]
        omega
      · have hmemr : id ∈ rest.flatten := mem_flatten_of_mem_take hm
        have hne : findStack id rest ≠ -1 := fun h =>
          ((findStack_eq_neg_one id rest).mp h) hmemr
        have hrec := ih k hndr hm
        simp only [findStack, if_neg hne]
        omega

/-- Replacing a column by one with the same membership status of `id`
leaves `findStack id` unchanged. -/
lemma findStack_set_congr (id : String) (L : List (List String)) (j : Nat)
    (c : List String) (hiff : id ∈ c ↔ id ∈ L.getD j []) :
    findStack id (L.set j c) = findStack id L := by
  induction L generalizing j with
  | nil => rfl
  | cons col rest ih =>
    cases j with
    | zero =>
      rw [List.getD_cons_zero] at hiff
      rw [List.set_cons_zero]
      simp only [findStack]
      by_cases hr : findStack id rest = -1
      · rw [if_pos hr, if_pos hr]
        by_cases hc : id ∈ col
        · rw [if_pos (hiff.mpr hc), if_pos hc]
        · rw [if_neg (fun h => hc (hiff.mp h)), if_neg hc]
      · rw [if_neg hr, if_neg hr]
    | succ j =>
      rw [List.getD_cons_succ] at hiff
      rw [List.set_cons_succ]
      simp only [findStack, ih j hiff]

/-- Columns of a duplicate-free flattening are duplicate-free. -/
lemma nodup_getD_of_flatten (L : List (List String)) (j : Nat)
    (hnd : L.flatten.Nodup) : (L.getD j []).Nodup := by
  induction L generalizing j with
  | nil => simp
  | cons col rest ih =>
    rw [List.flatten_cons, List.nodup_append] at hnd
    cases j with
    | zero => simpa using hnd.1
    | succ j => exact ih j hnd.2.1

/-- Columns of a duplicate-free flattening are pairwise disjoint. -/
lemma getD_disjoint_of_flatten (L : List (List String)) (j k : Nat) (id : String)
    (hnd : L.flatten.Nodup) (hjk : j ≠ k) (hj : id ∈ L.getD j [])
    (hk : id ∈ L.getD k []) : False := by
  induction L generalizing j k with
  | nil => simp at hj
  | cons col rest ih =>
    rw [List.flatten_cons, List.nodup_append] at hnd
    obtain ⟨_, hndr, hdisj⟩ := hnd
    cases j with
    | zero =>
      cases k with
      | zero => exact hjk rfl
      | succ k =>
        exact hdisj (by simpa using hj) (mem_getD_flatten id rest k (by simpa using hk))
    | succ j =>
      cases k with
      | zero =>
        exact hdisj (by simpa using hk) (mem_getD_flatten id rest j (by simpa using hj))
      | succ k =>
        exact ih j k hndr (fun h => hjk (by omega)) (by simpa using hj) (by simpa using hk)

/-- Reading back the column just replaced. -/
lemma getD_set_self_col (L : List (List String)) (j : Nat) (c : List String)
    (hj : j < L.length) : (L.set j c).getD j [] = c := by
  rw [List.getD_eq_getElem?_getD, List.getElem?_set_self (by simpa using hj)]
  rfl

/-! ## C3: shape lemmas for the per-literal estimate -/

/-- The `holding` branch of the per-literal estimate. -/
lemma hLit_holding (node : SearchState) (lit : Literal) (h : lit.relation = "holding") :
    hLit node lit =
      (if findStack (lit.args.getD 0 "") node.stackList = -1 then (0:ℚ)
       else ((findStack (lit.args.getD 0 "") node.stackList - (node.arm : Int)).natAbs : ℚ)
         + 1) := by
  unfold hLit
  rw [if_pos h]

/-- The `leftof` branch of the per-literal estimate. -/
lemma hLit_leftof (node : SearchState) (lit : Literal) (h : lit.relation = "leftof") :
    hLit node lit =
      (if (if findStack (lit.args.getD 0 "") node.stackList = -1 then (node.arm : Int)
           else findStack (lit.args.getD 0 "") node.stackList) <
          (if findStack (lit.args.getD 1 "") node.stackList = -1 then (node.arm : Int)
           else findStack (lit.args.getD 1 "") node.stackList) then (0:ℚ)
       else (((if findStack (lit.args.getD 0 "") node.stackList = -1 then (node.arm : Int)
               else findStack (lit.args.getD 0 "") node.stackList) -
              (if findStack (lit.args.getD 1 "") node.stackList = -1 then (node.arm : Int)
               else findStack (lit.args.getD 1 "") node.stackList) : Int) : ℚ) + 2) := by
  unfold hLit
  rw [if_neg (by rw [h]; decide), if_pos h]

/-- The `rightof` branch of the per-literal estimate. -/
lemma hLit_rightof (node : SearchState) (lit : Literal) (h : lit.relation = "rightof") :
    hLit node lit =
      (if (if findStack (lit.args.getD 1 "") node.stackList = -1 then (node.arm : Int)
           else findStack (lit.args.getD 1 "") node.stackList) <
          (if findStack (lit.args.getD 0 "") node.stackList = -1 then (node.arm : Int)
           else findStack (lit.args.getD 0 "") node.stackList) then (0:ℚ)
       else (((if findStack (lit.args.getD 1 "") node.stackList = -1 then (node.arm : Int)
               else findStack (lit.args.getD 1 "") node.stackList) -
              (if findStack (lit.args.getD 0 "") node.stackList = -1 then (node.arm : Int)
               else findStack (lit.args.getD 0 "") node.stackList) : Int) : ℚ) + 2) := by
  unfold hLit
  rw [if_neg (by rw [h]; decide), if_neg (by rw [h]; decide), if_pos h]

/-- The default branch of the per-literal estimate. -/
lemma hLit_other (node : SearchState) (lit : Literal) (h1 : lit.relation ≠ "holding")
    (h2 : lit.relation ≠ "leftof") (h3 : lit.relation ≠ "rightof") :
    hLit node lit = 0 := by
  unfold hLit
  rw [if_neg h1, if_neg h2, if_neg h3]

/-- The directional estimate shape is never negative. -/
lemma relEstimate_nonneg (p1 p2 : Int) :
    (0:ℚ) ≤ if p1 < p2 then (0:ℚ) else ((p1 - p2 : Int) : ℚ) + 2 := by
  split_ifs with h
  · norm_num
  · have h2 : (0:ℚ) ≤ ((p1 - p2 : Int) : ℚ) := by
      exact_mod_cast Int.sub_nonneg.mpr (not_lt.mp h)
    linarith

/-- The directional estimate drops by at most 3 when the relative offset
drops by at most 2. -/
lemma relEstimate_le (p1 p2 q1 q2 : Int) (h : p1 - p2 ≤ q1 - q2 + 2) (C : ℚ)
    (hC : 3 ≤ C) :
    (if p1 < p2 then (0:ℚ) else ((p1 - p2 : Int) : ℚ) + 2) ≤
      (if q1 < q2 then (0:ℚ) else ((q1 - q2 : Int) : ℚ) + 2) + C := by
  split_ifs with h1 h2 h2
  · linarith
  · have h3 : (0:ℚ) ≤ ((q1 - q2 : Int) : ℚ) := by
      exact_mod_cast Int.sub_nonneg.mpr (not_lt.mp h2)
    linarith
  · have h3 : ((p1 - p2 : Int) : ℚ) ≤ 1 := by
      exact_mod_cast (by omega : p1 - p2 ≤ (1:Int))
    linarith
  · have h3 : ((p1 - p2 : Int) : ℚ) ≤ ((q1 - q2 : Int) : ℚ) + 2 := by
      exact_mod_cast h
    linarith

/-- Adding a nonnegative cost keeps the directional estimate above
itself. -/
lemma relEstimate_le_self (p1 p2 : Int) (C : ℚ) (hC : 0 ≤ C) :
    (if p1 < p2 then (0:ℚ) else ((p1 - p2 : Int) : ℚ) + 2) ≤
      (if p1 < p2 then (0:ℚ) else ((p1 - p2 : Int) : ℚ) + 2) + C := by
  linarith

/-- The per-literal estimate is never negative. -/
lemma hLit_nonneg (node : SearchState) (lit : Literal) : 0 ≤ hLit node lit := by
  by_cases h1 : lit.relation = "holding"
  · rw [hLit_holding node lit h1]
    split_ifs with h
    · norm_num
    · positivity
  · by_cases h2 : lit.relation = "leftof"
    · rw [hLit_leftof node lit h2]
      exact relEstimate_nonneg _ _
    · by_cases h3 : lit.relation = "rightof"
      · rw [hLit_rightof node lit h3]
        exact relEstimate_nonneg _ _
      · rw [hLit_other node lit h1 h2 h3]

/-! ## C3: estimates vanish on satisfied literals -/

/-- On a §3.1-well-formed state, a satisfied literal has estimate 0. -/
lemma hLit_holds_zero (n : SearchState) (lit : Literal) (hwf : WFState n)
    (hl : litHolds n lit = true) : hLit n lit = 0 := by
  by_cases h1 : lit.relation = "holding"
  · unfold litHolds at hl
    rw [if_pos h1] at hl
    have hh : some (lit.args.getD 0 "") = n.holding := of_decide_eq_true hl
    have hnm : lit.args.getD 0 "" ∉ n.stackList.flatten := by
      unfold WFState stateIds at hwf
      rw [← hh] at hwf
      rw [List.nodup_append] at hwf
      exact fun hx => hwf.2.2 hx (by simp)
    rw [hLit_holding n lit h1, if_pos ((findStack_eq_neg_one _ _).mpr hnm)]
  · by_cases h2 : lit.relation = "leftof"
    · unfold litHolds at hl
      rw [if_neg h1, h2] at hl
      simp only [] at hl
      split at hl
      · exact absurd hl (by simp)
      · split at hl
        · exact absurd hl (by simp)
        · rename_i hhold hst
          simp only [findRelated, String.reduceEq, reduceIte] at hl
          split at hl
          · rename_i hlt
            have hz2 : lit.args.getD 1 "" ∈
                ((n.stackList.drop (findStack (lit.args.getD 0 "") n.stackList + 1).toNat).flatten) := by
              simpa using hl
            have hge := le_findStack_of_mem_drop (lit.args.getD 1 "") n.stackList _ hz2
            rw [Int.toNat_of_nonneg (by omega)] at hge
            rw [hLit_leftof n lit h2]
            rw [if_neg (by omega : ¬ findStack (lit.args.getD 0 "") n.stackList = -1),
              if_neg (by omega : ¬ findStack (lit.args.getD 1 "") n.stackList = -1)]
            rw [if_pos (by omega)]
          · exact absurd hl (by simp)
    · by_cases h3 : lit.relation = "rightof"
      · unfold litHolds at hl
        rw [if_neg h1, h3] at hl
        simp only [] at hl
        split at hl
        · exact absurd hl (by simp)
        · split at hl
          · exact absurd hl (by simp)
          · rename_i hhold hst
            simp only [findRelated, String.reduceEq, reduceIte] at hl
            split at hl
            · rename_i hlt
              have hz2 : lit.args.getD 1 "" ∈
                  ((n.stackList.take (findStack (lit.args.getD 0 "") n.stackList).toNat).flatten) := by
                simpa using hl
              have hflatnd : n.stackList.flatten.Nodup := by
                unfold WFState stateIds at hwf
                exact (List.nodup_append.mp hwf).1
              have hlt2 := findStack_lt_of_mem_take (lit.args.getD 1 "") n.stackList _ hflatnd hz2
              rw [Int.toNat_of_nonneg (by omega)] at hlt2
              have hne2 : findStack (lit.args.getD 1 "") n.stackList ≠ -1 := fun hx =>
                ((findStack_eq_neg_one _ _).mp hx) (mem_flatten_of_mem_take hz2)
              rw [hLit_rightof n lit h3]
              rw [if_neg (by omega : ¬ findStack (lit.args.getD 0 "") n.stackList = -1),
                if_neg hne2]
              rw [if_pos (by omega)]
            · exact absurd hl (by simp)
      · exact hLit_other n lit h1 h2 h3

/-! ## C3: presence of literal arguments, and edge costs -/

/-- A satisfied literal has its estimate-relevant arguments present in the
state. -/
lemma litHolds_present (n : SearchState) (lit : Literal)
    (hl : litHolds n lit = true) : litArgsPresent n lit := by
  unfold litArgsPresent
  by_cases h1 : lit.relation = "holding"
  · rw [if_pos h1]
    unfold litHolds at hl
    rw [if_pos h1] at hl
    have hh := of_decide_eq_true hl
    unfold presentIn stateIds
    rw [← hh]
    simp
  · rw [if_neg h1]
    by_cases hlr : lit.relation = "leftof" ∨ lit.relation = "rightof"
    · rw [if_pos hlr]
      unfold litHolds at hl
      rw [if_neg h1] at hl
      simp only [] at hl
      split at hl
      · exact absurd hl (by simp)
      · split at hl
        · exact absurd hl (by simp)
        · rename_i hhold hst
          have hz1 : lit.args.getD 0 "" ∈ n.stackList.flatten := by
            by_contra hx
            have := (findStack_eq_neg_one (lit.args.getD 0 "") n.stackList).mpr hx
            omega
          refine ⟨?_, ?_⟩
          · unfold presentIn stateIds
            exact List.mem_append.mpr (Or.inl hz1)
          · unfold presentIn stateIds
            refine List.mem_append.mpr (Or.inl ?_)
            rcases hlr with h2 | h2
            · rw [h2] at hl
              simp only [findRelated, String.reduceEq, reduceIte] at hl
              split at hl
              · exact mem_flatten_of_mem_drop (by simpa using hl)
              · exact absurd hl (by simp)
            · rw [h2] at hl
              simp only [findRelated, String.reduceEq, reduceIte] at hl
              split at hl
              · exact mem_flatten_of_mem_take (by simpa using hl)
              · exact absurd hl (by simp)
    · rw [if_neg hlr]
      trivial

/-- Shrinking the identifier pool backwards preserves argument
presence. -/
lemma litArgsPresent_mono (u v : SearchState) (lit : Literal)
    (hsub : ∀ z, z ∈ stateIds v → z ∈ stateIds u)
    (h : litArgsPresent v lit) : litArgsPresent u lit := by
  unfold litArgsPresent presentIn at h ⊢
  split_ifs at h ⊢ with h1 h2
  · exact hsub _ h
  · exact ⟨hsub _ h.1, hsub _ h.2⟩

/-- The length of any column is at most the length of the flattening. -/
lemma getD_length_le_flatten (L : List (List String)) (i : Nat) :
    (L.getD i []).length ≤ L.flatten.length := by
  by_cases hi : i < L.length
  · rw [List.length_flatten]
    refine List.single_le_sum (fun x _ => Nat.zero_le x) _ ?_
    rw [List.getD_eq_getElem?_getD, List.getElem?_eq_getElem hi]
    exact List.mem_map_of_mem _ (List.getElem_mem hi)
  · rw [List.getD_eq_getElem?_getD, List.getElem?_eq_none (by omega)]
    simp

/-- On states whose object count is bounded by the graph's object count,
every outgoing edge costs at least 1. -/
lemma edge_cost_ge_one (g : SearchStateGraph) (s : SearchState) (e : Edge SearchState)
    (he : e ∈ g.outgoingEdges s) (hcount : countIds s ≤ g.numObjects) :
    1 ≤ e.cost := by
  have hcol : (s.stackList.getD s.arm []).length ≤ s.stackList.flatten.length :=
    getD_length_le_flatten s.stackList s.arm
  have hflat : s.stackList.flatten.length ≤ countIds s := by
    unfold countIds stateIds
    rw [List.length_append]
    omega
  have hN : (s.stackList.getD s.arm []).length ≤ g.numObjects := by omega
  rcases outgoingEdges_cases g s e he with
    ⟨_, _, hcost⟩ | ⟨_, _, hcost⟩ | ⟨_, hne, _, hcost⟩ | ⟨x, hh, _, hrest⟩
  · rw [hcost]
    rcases hs : s.holding with _ | h <;> simp only [hs]
    · norm_num
    · split_ifs <;> norm_num
  · rw [hcost]
    rcases hs : s.holding with _ | h <;> simp only [hs]
    · norm_num
    · split_ifs <;> norm_num
  · rw [hcost]
    have hpos : 0 < (s.stackList.getD s.arm []).length := List.length_pos.mpr hne
    have hq1 : ((s.stackList.getD s.arm []).length : ℚ) ≤ (g.numObjects : ℚ) := by
      exact_mod_cast hN
    have hq2 : (0:ℚ) < (g.numObjects : ℚ) := by
      exact_mod_cast (by omega : 0 < g.numObjects)
    have hnn : (0:ℚ) ≤ 10 * ((g.numObjects : ℚ) - ((s.stackList.getD s.arm []).length : ℚ)) /
        (g.numObjects : ℚ) := by
      apply div_nonneg _ (le_of_lt hq2)
      nlinarith
    linarith
  · rcases hrest with ⟨_, hcost⟩ | ⟨hne, _, hcost⟩
    · rw [hcost]
      norm_num
    · rw [hcost]
      have hpos : 0 < (s.stackList.getD s.arm []).length := List.length_pos.mpr hne
      have hq1 : ((s.stackList.getD s.arm []).length : ℚ) ≤ (g.numObjects : ℚ) := by
        exact_mod_cast hN
      have hq2 : (0:ℚ) < (g.numObjects : ℚ) := by
        exact_mod_cast (by omega : 0 < g.numObjects)
      have hnn : (0:ℚ) ≤ 10 * ((g.numObjects : ℚ) - ((s.stackList.getD s.arm []).length : ℚ)) /
          (g.numObjects : ℚ) := by
        apply div_nonneg _ (le_of_lt hq2)
        nlinarith
      linarith

/-! ## C3: per-literal consistency across one edge -/

/-- A found identifier sits in the found column. -/
lemma findStack_mem_getD (id : String) (L : List (List String))
    (h : findStack id L ≠ -1) : id ∈ L.getD (findStack id L).toNat [] := by
  induction L with
  | nil => simp [findStack] at h
  | cons col rest ih =>
    have hb := neg_one_le_findStack id rest
    simp only [findStack] at h ⊢
    split_ifs at h ⊢ with hr hc
    · simpa using hc
    · exact absurd rfl h
    · have hrec := ih hr
      have htn : (findStack id rest + 1).toNat = (findStack id rest).toNat + 1 := by omega
      rw [htn, List.getD_cons_succ]
      exact hrec

/-- Membership in column `j` bounds `findStack` from below. -/
lemma le_findStack_of_mem_getD (id : String) (L : List (List String)) (j : Nat)
    (hm : id ∈ L.getD j []) : (j : Int) ≤ findStack id L := by
  apply le_findStack_of_mem_drop
  apply mem_getD_flatten id _ 0
  rw [List.getD_eq_getElem?_getD, List.getElem?_drop]
  simpa [List.getD_eq_getElem?_getD] using hm

/-- The directional estimate on the diagonal. -/
lemma relEstimate_diag (p : Int) :
    (if p < p then (0:ℚ) else ((p - p : Int) : ℚ) + 2) = 2 := by
  rw [if_neg (lt_irrefl p)]
  simp

/-- A present identifier with no stack is the held object. -/
lemma holding_of_present_not_found (s : SearchState) (z : String)
    (hp : presentIn s z) (hpos : findStack z s.stackList = -1) :
    s.holding = some z := by
  have hnm : z ∉ s.stackList.flatten := (findStack_eq_neg_one _ _).mp hpos
  unfold presentIn stateIds at hp
  rcases List.mem_append.mp hp with hx | hx
  · exact absurd hx hnm
  · rcases hs : s.holding with _ | h0 <;> rw [hs] at hx
    · simp at hx
    · simp at hx
      rw [hx]

/-- Consistency of the per-literal estimate across an arm move: a move of
at most one column with cost at least 1, and at least 3 when an object is
carried, keeps the estimate from dropping faster than the cost. -/
lemma hLit_arm_step (s d : SearchState) (lit : Literal) (C : ℚ)
    (hstacks : d.stackList = s.stackList)
    (harm1 : (s.arm : Int) ≤ (d.arm : Int) + 1)
    (harm2 : (d.arm : Int) ≤ (s.arm : Int) + 1)
    (hC1 : 1 ≤ C)
    (hC3 : ∀ z, s.holding = some z → 3 ≤ C)
    (hpres : litArgsPresent s lit) :
    hLit s lit ≤ hLit d lit + C := by
  by_cases hr1 : lit.relation = "holding"
  · rw [hLit_holding s lit hr1, hLit_holding d lit hr1, hstacks]
    by_cases hpos : findStack (lit.args.getD 0 "") s.stackList = -1
    · simp only [if_pos hpos]
      linarith
    · simp only [if_neg hpos]
      have hN : (findStack (lit.args.getD 0 "") s.stackList - (s.arm:Int)).natAbs ≤
          (findStack (lit.args.getD 0 "") s.stackList - (d.arm:Int)).natAbs + 1 := by omega
      have hQ : (((findStack (lit.args.getD 0 "") s.stackList - (s.arm:Int)).natAbs : Nat) : ℚ) ≤
          (((findStack (lit.args.getD 0 "") s.stackList - (d.arm:Int)).natAbs : Nat) : ℚ) + 1 := by
        exact_mod_cast hN
      linarith
  · by_cases hr2 : lit.relation = "leftof"
    · rw [hLit_leftof s lit hr2, hLit_leftof d lit hr2, hstacks]
      unfold litArgsPresent at hpres
      rw [if_neg hr1, if_pos (Or.inl hr2)] at hpres
      obtain ⟨hp1, hp2⟩ := hpres
      by_cases hpos1 : findStack (lit.args.getD 0 "") s.stackList = -1 <;>
        by_cases hpos2 : findStack (lit.args.getD 1 "") s.stackList = -1
      · simp only [if_pos hpos1, if_pos hpos2]
        rw [relEstimate_diag, relEstimate_diag]
        linarith
      · simp only [if_pos hpos1, if_neg hpos2]
        have hz1 := holding_of_present_not_found s _ hp1 hpos1
        exact relEstimate_le _ _ _ _ (by omega) C (hC3 _ hz1)
      · simp only [if_neg hpos1, if_pos hpos2]
        have hz2 := holding_of_present_not_found s _ hp2 hpos2
        exact relEstimate_le _ _ _ _ (by omega) C (hC3 _ hz2)
      · simp only [if_neg hpos1, if_neg hpos2]
        exact relEstimate_le_self _ _ _ (by linarith)
    · by_cases hr3 : lit.relation = "rightof"
      · rw [hLit_rightof s lit hr3, hLit_rightof d lit hr3, hstacks]
        unfold litArgsPresent at hpres
        rw [if_neg hr1, if_pos (Or.inr hr3)] at hpres
        obtain ⟨hp1, hp2⟩ := hpres
        by_cases hpos1 : findStack (lit.args.getD 0 "") s.stackList = -1 <;>
          by_cases hpos2 : findStack (lit.args.getD 1 "") s.stackList = -1
        · simp only [if_pos hpos1, if_pos hpos2]
          rw [relEstimate_diag, relEstimate_diag]
          linarith
        · simp only [if_pos hpos1, if_neg hpos2]
          have hz1 := holding_of_present_not_found s _ hp1 hpos1
          exact relEstimate_le _ _ _ _ (by omega) C (hC3 _ hz1)
        · simp only [if_neg hpos1, if_pos hpos2]
          have hz2 := holding_of_present_not_found s _ hp2 hpos2
          exact relEstimate_le _ _ _ _ (by omega) C (hC3 _ hz2)
        · simp only [if_neg hpos1, if_neg hpos2]
          exact relEstimate_le_self _ _ _ (by linarith)
      · rw [hLit_other s lit hr1 hr2 hr3, hLit_other d lit hr1 hr2 hr3]
        linarith

/-- Equality of the two directional estimates when both effective
positions agree. -/
lemma hLit_rel_step_of_pEq (s d : SearchState) (lit : Literal) (C : ℚ) (hC0 : 0 ≤ C)
    (hp0 : (if findStack (lit.args.getD 0 "") d.stackList = -1 then (d.arm : Int)
            else findStack (lit.args.getD 0 "") d.stackList) =
           (if findStack (lit.args.getD 0 "") s.stackList = -1 then (s.arm : Int)
            else findStack (lit.args.getD 0 "") s.stackList))
    (hp1 : (if findStack (lit.args.getD 1 "") d.stackList = -1 then (d.arm : Int)
            else findStack (lit.args.getD 1 "") d.stackList) =
           (if findStack (lit.args.getD 1 "") s.stackList = -1 then (s.arm : Int)
            else findStack (lit.args.getD 1 "") s.stackList))
    (hlr : lit.relation = "leftof" ∨ lit.relation = "rightof") :
    hLit s lit ≤ hLit d lit + C := by
  rcases hlr with h2 | h2
  · rw [hLit_leftof s lit h2, hLit_leftof d lit h2, hp0, hp1]
    exact relEstimate_le_self _ _ _ hC0
  · rw [hLit_rightof s lit h2, hLit_rightof d lit h2, hp0, hp1]
    exact relEstimate_le_self _ _ _ hC0

/-- Picking the top of the arm's column does not move any effective
position: the picked object's position collapses to the arm column it was
in, and all the rest are untouched. -/
lemma pEff_eq_pick (s : SearchState) (z : String)
    (hflatnd : s.stackList.flatten.Nodup)
    (hcolne : s.stackList.getD s.arm [] ≠ []) :
    (if findStack z (s.stackList.set s.arm (s.stackList.getD s.arm []).dropLast) = -1
     then (s.arm : Int)
     else findStack z (s.stackList.set s.arm (s.stackList.getD s.arm []).dropLast)) =
    (if findStack z s.stackList = -1 then (s.arm : Int) else findStack z s.stackList) := by
  have harm : s.arm < s.stackList.length := getD_ne_nil_lt _ _ hcolne
  by_cases hz : z = (s.stackList.getD s.arm []).getLast hcolne
  · have hs : findStack z s.stackList = (s.arm : Int) :=
      findStack_eq_of_mem z _ s.arm hflatnd harm
        (by rw [hz]; exact List.getLast_mem hcolne)
    have hd : findStack z (s.stackList.set s.arm (s.stackList.getD s.arm []).dropLast)
        = -1 := by
      rw [findStack_eq_neg_one]
      intro hx
      obtain ⟨j, hj, hm⟩ := flatten_mem_getD z _ hx
      by_cases hja : j = s.arm
      · subst hja
        rw [getD_set_self_col _ _ _ harm] at hm
        have hnd := nodup_getD_of_flatten s.stackList s.arm hflatnd
        rw [← List.dropLast_concat_getLast hcolne, List.nodup_append] at hnd
        exact hnd.2.2 hm (by simp [hz])
      · rw [getD_set_ne _ _ _ _ (fun hx' => hja hx'.symm)] at hm
        exact getD_disjoint_of_flatten s.stackList s.arm j z hflatnd
          (fun hx' => hja hx'.symm) (by rw [hz]; exact List.getLast_mem hcolne) hm
    rw [hd, if_pos rfl, hs, if_neg (by omega)]
  · have hiff : z ∈ (s.stackList.getD s.arm []).dropLast ↔ z ∈ s.stackList.getD s.arm [] := by
      constructor
      · exact fun h => List.mem_of_mem_dropLast h
      · intro h
        rw [← List.dropLast_concat_getLast hcolne, List.mem_append] at h
        rcases h with h | h
        · exact h
        · rw [List.mem_singleton] at h
          exact absurd h hz
    rw [findStack_set_congr z s.stackList s.arm _ hiff]

/-- Dropping the held object onto the arm's column does not move any
effective position: the dropped object's position was the arm column and
becomes it, and all the rest are untouched. -/
lemma pEff_eq_drop (s : SearchState) (x z : String)
    (hnm : x ∉ s.stackList.flatten) :
    (if findStack z (s.stackList.set s.arm (s.stackList.getD s.arm [] ++ [x])) = -1
     then (s.arm : Int)
     else findStack z (s.stackList.set s.arm (s.stackList.getD s.arm [] ++ [x]))) =
    (if findStack z s.stackList = -1 then (s.arm : Int) else findStack z s.stackList) := by
  by_cases hz : z = x
  · subst hz
    have hs : findStack z s.stackList = -1 := (findStack_eq_neg_one _ _).mpr hnm
    rw [hs, if_pos rfl]
    by_cases harm : s.arm < s.stackList.length
    · have hmem : z ∈ (s.stackList.set s.arm (s.stackList.getD s.arm [] ++ [z])).getD
          s.arm [] := by
        rw [getD_set_self_col _ _ _ harm]
        simp
      have hge := le_findStack_of_mem_getD z _ s.arm hmem
      have hlt : findStack z (s.stackList.set s.arm (s.stackList.getD s.arm [] ++ [z])) ≤
          (s.arm : Int) := by
        by_contra hgt
        push_neg at hgt
        have hne : findStack z (s.stackList.set s.arm (s.stackList.getD s.arm [] ++ [z]))
            ≠ -1 := by omega
        have hm := findStack_mem_getD z _ hne
        rw [getD_set_ne _ _ _ _ (by omega)] at hm
        exact hnm (mem_getD_flatten z s.stackList _ hm)
      rw [le_antisymm hlt hge, if_neg (by omega)]
    · rw [List.set_eq_of_length_le (by omega), hs, if_pos rfl]
  · have hiff : z ∈ s.stackList.getD s.arm [] ++ [x] ↔ z ∈ s.stackList.getD s.arm [] := by
      rw [List.mem_append]
      constructor
      · intro h
        rcases h with h | h
        · exact h
        · rw [List.mem_singleton] at h
          exact absurd h hz
      · exact Or.inl
    rw [findStack_set_congr z s.stackList s.arm _ hiff]

/-- The picked object is gone from the stacks after the pick. -/
lemma findStack_pick_last (s : SearchState)
    (hflatnd : s.stackList.flatten.Nodup)
    (hcolne : s.stackList.getD s.arm [] ≠ []) :
    findStack ((s.stackList.getD s.arm []).getLast hcolne)
      (s.stackList.set s.arm (s.stackList.getD s.arm []).dropLast) = -1 := by
  have harm : s.arm < s.stackList.length := getD_ne_nil_lt _ _ hcolne
  rw [findStack_eq_neg_one]
  intro hx
  obtain ⟨j, hj, hm⟩ := flatten_mem_getD _ _ hx
  by_cases hja : j = s.arm
  · subst hja
    rw [getD_set_self_col _ _ _ harm] at hm
    have hnd := nodup_getD_of_flatten s.stackList s.arm hflatnd
    rw [← List.dropLast_concat_getLast hcolne, List.nodup_append] at hnd
    exact hnd.2.2 hm (by simp)
  · rw [getD_set_ne _ _ _ _ (fun hx' => hja hx'.symm)] at hm
    exact getD_disjoint_of_flatten s.stackList s.arm j _ hflatnd
      (fun hx' => hja hx'.symm) (List.getLast_mem hcolne) hm

/-- Consistency of the per-literal estimate across any outgoing edge: on a
well-formed state with an in-bounds object count, the estimate drops by at
most the edge's cost. -/
lemma hLit_consistent (g : SearchStateGraph) (s : SearchState) (e : Edge SearchState)
    (he : e ∈ g.outgoingEdges s) (hwf : WFState s) (hcount : countIds s ≤ g.numObjects)
    (lit : Literal) (hpres : litArgsPresent s lit) :
    hLit s lit ≤ hLit e.dst lit + e.cost := by
  have hc1 : 1 ≤ e.cost := edge_cost_ge_one g s e he hcount
  have hflatnd : s.stackList.flatten.Nodup := by
    unfold WFState stateIds at hwf
    exact (List.nodup_append.mp hwf).1
  rcases outgoingEdges_cases g s e he with
    ⟨harm, hdst, hcost⟩ | ⟨harm, hdst, hcost⟩ | ⟨hh, hcolne, hdst, hcost⟩ |
    ⟨x, hh, hdst, hrest⟩
  · rw [hdst]
    refine hLit_arm_step s _ lit e.cost rfl
      (by show (s.arm : Int) ≤ ((s.arm - 1 : Nat) : Int) + 1; omega)
      (by show ((s.arm - 1 : Nat) : Int) ≤ (s.arm : Int) + 1; omega)
      hc1 (fun z hz => ?_) hpres
    rw [hcost, hz]
    show (3:ℚ) ≤ 1 + (2 + if (g.worldObjects z).size = "large" then 2 else 0)
    split_ifs <;> norm_num
  · rw [hdst]
    refine hLit_arm_step s _ lit e.cost rfl
      (by show (s.arm : Int) ≤ ((s.arm + 1 : Nat) : Int) + 1; omega)
      (by show ((s.arm + 1 : Nat) : Int) ≤ (s.arm : Int) + 1; omega)
      hc1 (fun z hz => ?_) hpres
    rw [hcost, hz]
    show (3:ℚ) ≤ 1 + (2 + if (g.worldObjects z).size = "large" then 2 else 0)
    split_ifs <;> norm_num
  · have harm : s.arm < s.stackList.length := getD_ne_nil_lt _ _ hcolne
    by_cases hr1 : lit.relation = "holding"
    · rw [hdst, hLit_holding s lit hr1, hLit_holding _ lit hr1]
      dsimp only
      by_cases hz : lit.args.getD 0 "" = (s.stackList.getD s.arm []).getLast hcolne
      · have hfs_s : findStack (lit.args.getD 0 "") s.stackList = (s.arm : Int) := by
          rw [hz]
          exact findStack_eq_of_mem _ _ s.arm hflatnd harm (List.getLast_mem hcolne)
        have hfs_d : findStack (lit.args.getD 0 "")
            (s.stackList.set s.arm (s.stackList.getD s.arm []).dropLast) = -1 := by
          rw [hz]
          exact findStack_pick_last s hflatnd hcolne
        rw [hfs_d, if_pos rfl, hfs_s, if_neg (by omega)]
        simp only [Int.sub_self, Int.natAbs_zero, Nat.cast_zero]
        linarith
      · have hiff : lit.args.getD 0 "" ∈ (s.stackList.getD s.arm []).dropLast ↔
            lit.args.getD 0 "" ∈ s.stackList.getD s.arm [] := by
          constructor
          · exact fun h => List.mem_of_mem_dropLast h
          · intro h
            rw [← List.dropLast_concat_getLast hcolne, List.mem_append] at h
            rcases h with h | h
            · exact h
            · rw [List.mem_singleton] at h
              exact absurd h hz
        rw [findStack_set_congr _ s.stackList s.arm _ hiff]
        split_ifs <;> linarith
    · by_cases hlr : lit.relation = "leftof" ∨ lit.relation = "rightof"
      · rw [hdst]
        refine hLit_rel_step_of_pEq s _ lit e.cost (by linarith) ?_ ?_ hlr
        · exact pEff_eq_pick s _ hflatnd hcolne
        · exact pEff_eq_pick s _ hflatnd hcolne
      · push_neg at hlr
        rw [hLit_other s lit hr1 hlr.1 hlr.2, hLit_other e.dst lit hr1 hlr.1 hlr.2]
        linarith
  · have hnm : x ∉ s.stackList.flatten := by
      unfold WFState stateIds at hwf
      rw [hh] at hwf
      rw [List.nodup_append] at hwf
      exact fun hx => hwf.2.2 hx (by simp)
    by_cases hr1 : lit.relation = "holding"
    · by_cases hz : lit.args.getD 0 "" = x
      · rw [hLit_holding s lit hr1, hz, if_pos ((findStack_eq_neg_one _ _).mpr hnm)]
        linarith [hLit_nonneg e.dst lit]
      · rw [hdst, hLit_holding s lit hr1, hLit_holding _ lit hr1]
        dsimp only
        have hiff : lit.args.getD 0 "" ∈ s.stackList.getD s.arm [] ++ [x] ↔
            lit.args.getD 0 "" ∈ s.stackList.getD s.arm [] := by
          rw [List.mem_append]
          constructor
          · intro h
            rcases h with h | h
            · exact h
            · rw [List.mem_singleton] at h
              exact absurd h hz
          · exact Or.inl
        rw [findStack_set_congr _ s.stackList s.arm _ hiff]
        split_ifs <;> linarith
    · by_cases hlr : lit.relation = "leftof" ∨ lit.relation = "rightof"
      · rw [hdst]
        refine hLit_rel_step_of_pEq s _ lit e.cost (by linarith) ?_ ?_ hlr
        · exact pEff_eq_drop s x _ hnm
        · exact pEff_eq_drop s x _ hnm
      · push_neg at hlr
        rw [hLit_other s lit hr1 hlr.1 hlr.2, hLit_other e.dst lit hr1 hlr.1 hlr.2]
        linarith

/-! ## C3: folding the estimates along a goal path -/

/-- Upper bounds for the folded maximum. -/
lemma maxQ_le (l : List ℚ) (b : WithBot ℚ)
    (h : ∀ q ∈ l, ((q : ℚ) : WithBot ℚ) ≤ b) : maxQ l ≤ b := by
  induction l with
  | nil => exact bot_le
  | cons q t ih =>
    simp only [maxQ, List.foldr_cons]
    exact max_le (h q (List.mem_cons_self q t))
      (ih (fun r hr => h r (List.mem_cons_of_mem q hr)))

/-- Members bound the folded maximum from below. -/
lemma le_maxQ (l : List ℚ) (q : ℚ) (h : q ∈ l) :
    ((q : ℚ) : WithBot ℚ) ≤ maxQ l := by
  induction l with
  | nil => simp at h
  | cons r t ih =>
    simp only [maxQ, List.foldr_cons]
    rcases List.mem_cons.mp h with h | h
    · exact h ▸ le_max_left _ _
    · exact le_max_of_le_right (ih h)

/-- The folded minimum is below each member. -/
lemma minB_le (l : List (WithBot ℚ)) (v : WithBot ℚ) (h : v ∈ l) :
    minB l ≤ ((v : WithBot ℚ) : HVal) := by
  induction l with
  | nil => simp at h
  | cons r t ih =>
    simp only [minB, List.foldr_cons]
    rcases List.mem_cons.mp h with h | h
    · exact h ▸ min_le_left _ _
    · exact min_le_of_right_le (ih h)

/-- One-edge step for a conjunction estimate. -/
lemma hConj_step (g : SearchStateGraph) (s : SearchState) (e : Edge SearchState)
    (he : e ∈ g.outgoingEdges s) (hwf : WFState s) (hcount : countIds s ≤ g.numObjects)
    (c : Conjunction) (hpres : ∀ lit ∈ c, litArgsPresent s lit) :
    hConj s c ≤ hConj e.dst c + ((e.cost : ℚ) : WithBot ℚ) := by
  unfold hConj
  apply maxQ_le
  intro q hq
  obtain ⟨lit, hlit, rfl⟩ := List.mem_map.mp hq
  have h1 := hLit_consistent g s e he hwf hcount lit (hpres lit hlit)
  have h2 : ((hLit e.dst lit : ℚ) : WithBot ℚ) ≤ maxQ (c.map (hLit e.dst)) :=
    le_maxQ _ _ (List.mem_map_of_mem _ hlit)
  calc ((hLit s lit : ℚ) : WithBot ℚ)
      ≤ ((hLit e.dst lit + e.cost : ℚ) : WithBot ℚ) := by exact_mod_cast h1
    _ = ((hLit e.dst lit : ℚ) : WithBot ℚ) + ((e.cost : ℚ) : WithBot ℚ) := by
        rw [WithBot.coe_add]
    _ ≤ maxQ (c.map (hLit e.dst)) + ((e.cost : ℚ) : WithBot ℚ) :=
        add_le_add_right h2 _

/-- Well-formedness, the object-count bound, and the identifier pool all
propagate across one edge. -/
lemma edge_invariants (g : SearchStateGraph) (s : SearchState) (e : Edge SearchState)
    (he : e ∈ g.outgoingEdges s) (hwf : WFState s) (hcount : countIds s ≤ g.numObjects) :
    WFState e.dst ∧ countIds e.dst ≤ g.numObjects ∧
      (∀ z, z ∈ stateIds e.dst → z ∈ stateIds s) := by
  rcases edge_ids g s e he with hp | ⟨_, hsub⟩
  · refine ⟨hp.nodup_iff.mpr hwf, ?_, fun z hz => hp.subset hz⟩
    unfold countIds at hcount ⊢
    rw [hp.length_eq]
    exact hcount
  · refine ⟨List.Nodup.sublist hsub hwf, ?_, fun z hz => hsub.subset hz⟩
    unfold countIds at hcount ⊢
    exact le_trans hsub.length_le hcount

/-- Walking a linked path into a state satisfying every literal of a
conjunction: the conjunction estimate at the start is bounded by the total
path cost, and all estimate-relevant arguments are present at the start. -/
lemma hConj_le_path (g : SearchStateGraph) (c : Conjunction) :
    ∀ (sts : List SearchState) (es : List (Edge SearchState)) (u n : SearchState),
      linked g.toGraph (u :: sts) es = true →
      (u :: sts).getLast? = some n →
      (∀ lit ∈ c, litHolds n lit = true) →
      WFState u → countIds u ≤ g.numObjects →
      hConj u c ≤ (((es.map (·.cost)).sum : ℚ) : WithBot ℚ) ∧
        ∀ lit ∈ c, litArgsPresent u lit := by
  intro sts
  induction sts with
  | nil =>
    intro es u n hlink hlast hgoal hwf hcount
    cases es with
    | cons e es' => simp [linked] at hlink
    | nil =>
      have hun : u = n := by simpa using hlast
      subst hun
      constructor
      · simp only [List.map_nil, List.sum_nil]
        apply maxQ_le
        intro q hq
        obtain ⟨lit, hlit, rfl⟩ := List.mem_map.mp hq
        rw [hLit_holds_zero u lit hwf (hgoal lit hlit)]
      · exact fun lit hlit => litHolds_present u lit (hgoal lit hlit)
  | cons v sts' ih =>
    intro es u n hlink hlast hgoal hwf hcount
    cases es with
    | nil => simp [linked] at hlink
    | cons e es' =>
      simp only [linked, Bool.and_eq_true, decide_eq_true_eq] at hlink
      obtain ⟨⟨hmem, hdst⟩, hlink'⟩ := hlink
      obtain ⟨hwf', hcount', hsub⟩ := edge_invariants g u e hmem hwf hcount
      rw [hdst] at hwf' hcount' hsub
      have hlast' : (v :: sts').getLast? = some n := by
        rw [List.getLast?_cons_cons] at hlast
        exact hlast
      obtain ⟨hle, hpres'⟩ := ih es' v n hlink' hlast' hgoal hwf' hcount'
      have hpres : ∀ lit ∈ c, litArgsPresent u lit := fun lit hlit =>
        litArgsPresent_mono u v lit hsub (hpres' lit hlit)
      refine ⟨?_, hpres⟩
      have hstep := hConj_step g u e hmem hwf hcount c hpres
      rw [hdst] at hstep
      calc hConj u c ≤ hConj v c + ((e.cost : ℚ) : WithBot ℚ) := hstep
        _ ≤ (((es'.map (·.cost)).sum : ℚ) : WithBot ℚ) + ((e.cost : ℚ) : WithBot ℚ) :=
            add_le_add_right hle _
        _ = ((((e :: es').map (·.cost)).sum : ℚ) : WithBot ℚ) := by
            rw [List.map_cons, List.sum_cons, WithBot.coe_add, add_comm]

/-- C3 (amended): on a §3.1-well-formed start state whose object count is
within the graph's `numObjects` (true of every state reachable from the
construction snapshot when nothing was held at construction time),
`heuristics` never overestimates the cost of any successor path to a state
satisfying the goal test. -/
theorem heuristics_admissible_of_bounded (g : SearchStateGraph) (φ : DNFFormula)
    (sts : List SearchState) (es : List (Edge SearchState)) (s n : SearchState)
    (hlink : linked g.toGraph (s :: sts) es = true)
    (hlast : (s :: sts).getLast? = some n)
    (hgoal : goal φ n = true)
    (hwf : WFState s) (hcount : countIds s ≤ g.numObjects) :
    heuristics φ s ≤ qv ((es.map (·.cost)).sum) := by
  obtain ⟨c, hc, hall⟩ : ∃ c ∈ φ, ∀ lit ∈ c, litHolds n lit = true := by
    unfold goal at hgoal
    rw [List.any_eq_true] at hgoal
    obtain ⟨c, hc, hcall⟩ := hgoal
    rw [List.all_eq_true] at hcall
    exact ⟨c, hc, hcall⟩
  obtain ⟨hle, _⟩ := hConj_le_path g c sts es s n hlink hlast hall hwf hcount
  have h1 : heuristics φ s ≤ ((hConj s c : WithBot ℚ) : HVal) := by
    unfold heuristics
    exact minB_le _ _ (List.mem_map_of_mem _ hc)
  refine le_trans h1 ?_
  unfold qv
  exact_mod_cast hle

/-- C3 counterexample (against the claim as stated, for arbitrary
worlds): in the graph of `cexWorld` (built while holding `b`, so
`numObjects = 1`), the state `cexS0` reaches the goal `holding a` along
`cexPath` at total cost 0 — pick edges cost `-9` — while the heuristic
estimates 1. -/
theorem heuristics_not_admissible_cex :
    linked cexGraph.toGraph cexPath cexEdges = true ∧
    cexPath.head? = some cexS0 ∧
    cexPath.getLast? = some cexS8 ∧
    goal cexPhi cexS8 = true ∧
    ((cexEdges.map (·.cost)).sum = (0:ℚ)) ∧
    heuristics cexPhi cexS0 = qv 1 ∧
    ¬ heuristics cexPhi cexS0 ≤ qv ((cexEdges.map (·.cost)).sum) := by
  refine ⟨by with_unfolding_all rfl, by rfl, by rfl, by with_unfolding_all rfl,
    by with_unfolding_all rfl, by with_unfolding_all rfl, ?_⟩
  rw [show ((cexEdges.map (·.cost)).sum) = (0:ℚ) from by with_unfolding_all rfl]
  rw [show heuristics cexPhi cexS0 = qv 1 from by with_unfolding_all rfl]
  unfold qv
  intro hle
  have h10 : (1:ℚ) ≤ 0 := by exact_mod_cast hle
  linarith

/-- Witness for the amended C3 at the one-state path `[witHoldState]`. -/
theorem heuristics_admissible_of_bounded_witness :
    linked (mkSearchStateGraph witWorld).toGraph [witHoldState] [] = true ∧
    ([witHoldState].getLast? = some witHoldState) ∧
    goal witPhiB witHoldState = true ∧
    WFState witHoldState ∧
    countIds witHoldState ≤ (mkSearchStateGraph witWorld).numObjects ∧
    heuristics witPhiB witHoldState ≤
      qv ((([] : List (Edge SearchState)).map (·.cost)).sum) :=
  ⟨rfl, rfl, rfl, by unfold WFState; decide, by decide,
    heuristics_admissible_of_bounded (mkSearchStateGraph witWorld) witPhiB [] []
      witHoldState witHoldState rfl rfl rfl (by unfold WFState; decide) (by decide)⟩
